import Mathlib

/-!
The preloaded interception library libear (`src/libear/ear.c`), as a shallow embedding
of the C source.

* A C string is the list of its bytes before the terminating NUL (`CStr`); reading the
  position just past the bytes yields the NUL.
* A `char const **` array is the list of its cells (`StrArr`), a null cell being `none`;
  a pointer to such an array that may itself be null is an `Option StrArr`.
* `malloc`, `realloc` and `strdup` are taken to succeed where their failure branch ends
  the process with `exit`. The `strdup` of `bear_capture_env_t` has no such branch: its
  null result is kept as an absent value, so there the copy may fail (`strdup_or_null`).
* A `FILE *` opened for writing is the list of bytes written to it so far.
* The build macro `APPLE` of the absent `config.h` is the parameter `apple`.
-/

namespace Ear

/-! ## Strings and the C library -/

/-- Bytes of a NUL-terminated C string, terminator excluded. -/
abbrev CStr := List Nat

/-- Cells of a `char const **` array; `none` is a null pointer. -/
abbrev StrArr := List (Option CStr)

/-- Bytes of a string literal. -/
def cstr (s : String) : CStr := s.toList.map Char.toNat

/-- Libc `strlen`. -/
def strlen (s : CStr) : Nat := s.length

/-- The byte `s[i]`; position `strlen s` holds the terminating NUL. -/
def charAt (s : CStr) (i : Nat) : Nat := s.getD i 0

/-- Libc `strncmp`: compares at most `n` bytes, the end of a string counting as NUL. -/
def strncmp : CStr → CStr → Nat → Int
  | _, _, 0 => 0
  | [], [], _ + 1 => 0
  | [], b :: _, _ + 1 => 0 - (b : Int)
  | a :: _, [], _ + 1 => (a : Int)
  | a :: s, b :: t, n + 1 => if a = b then strncmp s t n else (a : Int) - (b : Int)

/-- Libc `strdup`: a fresh copy holding the same bytes. -/
def strdup (s : CStr) : CStr := s

/-- Libc `strdup` at a call site that keeps a null result: `ok` tells whether the
allocation succeeds; on failure the result is the null pointer. -/
def strdup_or_null (ok : Bool) (s : CStr) : Option CStr :=
  if ok then some (strdup s) else none

/-- Libc `snprintf` into a buffer of `size` bytes, `text` being the expansion of the
format: at most `size - 1` bytes are stored before the NUL. (Its return value is the
length of `text`, never the -1 the callers test for.) -/
def snprintf (size : Nat) (text : CStr) : CStr := text.take (size - 1)

/-- Libc `realloc` of a cell array to `n` cells: the old cells are kept, new cells are
unset. -/
def realloc (p : Option StrArr) (n : Nat) : StrArr :=
  (p.getD []).take n ++ List.replicate (n - (p.getD []).length) none

/-- Decimal digits of a natural number, most significant first. -/
def utoaAux : Nat → Nat → List Nat → List Nat
  | 0, _, acc => acc
  | fuel + 1, n, acc =>
    if n / 10 = 0 then (48 + n % 10) :: acc
    else utoaAux fuel (n / 10) ((48 + n % 10) :: acc)

/-- Decimal text of a natural number. -/
def utoa (n : Nat) : CStr := utoaAux (n + 1) n []

/-- Expansion of the conversion `%d`. -/
def fmt_d (n : Int) : CStr := if n < 0 then 45 :: utoa n.natAbs else utoa n.natAbs

/-- A `FILE *` open for writing: the bytes written so far. -/
abbrev FILE := List Nat

/-- Libc `fputc`. -/
def fputc (c : Nat) (fd : FILE) : FILE := fd ++ [c]

/-- Libc `fputs`. -/
def fputs (s : CStr) (fd : FILE) : FILE := fd ++ s

/-! ## Tracked variables and process-global state -/

/-- Macro `ENV_OUTPUT`. -/
def ENV_OUTPUT : CStr := cstr "INTERCEPT_BUILD_TARGET_DIR"

/-- Macro `ENV_FLAT`, defined when `APPLE` is. -/
def ENV_FLAT : CStr := cstr "DYLD_FORCE_FLAT_NAMESPACE"

/-- Macro `ENV_PRELOAD`. -/
def ENV_PRELOAD (apple : Bool) : CStr :=
  if apple then cstr "DYLD_INSERT_LIBRARIES" else cstr "LD_PRELOAD"

/-- Macro `ENV_SIZE`. -/
def ENV_SIZE (apple : Bool) : Nat := if apple then 3 else 2

/-- The type `bear_env_t`: `ENV_SIZE` cells of `char const *`. -/
abbrev bear_env_t := List (Option CStr)

/-- Static `env_names`. -/
def env_names (apple : Bool) : List CStr :=
  [ENV_OUTPUT, ENV_PRELOAD apple] ++ (if apple then [ENV_FLAT] else [])

/-- The statics `initialized` and `initial_env`. -/
structure Globals where
  initialized : Int
  initial_env : bear_env_t
  deriving DecidableEq, Repr

/-- The statics as the loader finds them: `initialized = 0`, every slot null. -/
def Globals.init (apple : Bool) : Globals :=
  { initialized := 0, initial_env := [none, none] ++ (if apple then [none] else []) }

/-! ## String arrays -/

/-- Loop of `bear_strings_length`: counts cells up to the first null. -/
def bear_strings_length_loop : StrArr → Nat
  | some _ :: it => bear_strings_length_loop it + 1
  | _ => 0

/-- Function `bear_strings_length`. -/
def bear_strings_length (inp : Option StrArr) : Nat :=
  match inp with
  | none => 0
  | some arr => bear_strings_length_loop arr

/-- Loop of `bear_strings_copy` with the final `*out_it = 0`. -/
def bear_strings_copy_loop : StrArr → StrArr
  | some s :: in_it => some (strdup s) :: bear_strings_copy_loop in_it
  | _ => [none]

/-- Function `bear_strings_copy`. -/
def bear_strings_copy (inp : Option StrArr) : StrArr :=
  bear_strings_copy_loop (inp.getD [])

/-- Function `bear_strings_append`. -/
def bear_strings_append (inp : Option StrArr) (e : CStr) : StrArr :=
  let size := bear_strings_length inp
  let result := realloc inp (size + 2)
  let result := result.set size (some e)
  result.set (size + 1) none

/-- Loop of `bear_strings_build`: `it` is the current argument, `ap` the arguments not
yet read by `va_arg` (reading past them yields null). Returns the array, `size` and the
arguments left. -/
def bear_strings_build_loop :
    Option CStr → List (Option CStr) → Option StrArr → Nat →
      Option StrArr × Nat × List (Option CStr)
  | none, ap, result, size => (result, size, ap)
  | some it, ap, result, size =>
    let result := (realloc result (size + 1)).set size (some (strdup it))
    match ap with
    | [] => (some result, size + 1, [])
    | a :: ap => bear_strings_build_loop a ap (some result) (size + 1)

/-- Function `bear_strings_build`, returning the array and the arguments left in the
`va_list`. -/
def bear_strings_build (arg : Option CStr) (args : List (Option CStr)) :
    StrArr × List (Option CStr) :=
  let r := bear_strings_build_loop arg args none 0
  ((realloc r.1 (r.2.1 + 1)).set r.2.1 none, r.2.2)

/-! ## Environment propagation -/

/-- The test of the search loop in `bear_update_environ`. -/
def entry_matches (e key : CStr) (key_length : Nat) : Bool :=
  strncmp e key key_length == 0 && decide (strlen e > key_length) &&
    charAt e key_length == 61

/-- Search loop of `bear_update_environ`: the index at which `it` stops. -/
def bear_update_environ_find (key : CStr) (key_length : Nat) : StrArr → Nat
  | some e :: it =>
    if entry_matches e key key_length then 0
    else bear_update_environ_find key key_length it + 1
  | _ => 0

/-- Function `bear_update_environ`. -/
def bear_update_environ (envs : Option StrArr) (key value : CStr) : StrArr :=
  let key_length := strlen key
  let it := bear_update_environ_find key key_length (envs.getD [])
  let value_length := strlen value
  let env_length := key_length + value_length + 2
  let env := snprintf env_length (key ++ 61 :: value)
  match (envs.getD []).getD it none with
  | some _ => (envs.getD []).set it (some env)
  | none => bear_strings_append envs env

/-- Loop of `bear_update_environment`: runs while `it < ENV_SIZE` and `(*env)[it]` is
not null. -/
def bear_update_environment_loop : List CStr → bear_env_t → StrArr → StrArr
  | key :: names, some value :: env, result =>
    bear_update_environment_loop names env (bear_update_environ (some result) key value)
  | _, _, result => result

/-- Function `bear_update_environment`. -/
def bear_update_environment (apple : Bool) (envp : Option StrArr) (env : bear_env_t) :
    StrArr :=
  bear_update_environment_loop (env_names apple) env (bear_strings_copy envp)

/-! ## Views used to state properties -/

/-- The strings of an array: the cells before the first null. -/
def entries : StrArr → List CStr
  | some s :: rest => s :: entries rest
  | _ => []

/-- The array holding exactly `xs` and the terminating null. -/
def cells (xs : List CStr) : StrArr := xs.map some ++ [none]

/-- The text `name=value`. -/
def assignment (name value : CStr) : CStr := name ++ 61 :: value

/-- An entry starts with `name=`. -/
def startsWithKey (name : CStr) (e : CStr) : Bool := (name ++ [61]).isPrefixOf e

/-- Replace the first element satisfying `m` by `a`, or append `a` when there is none. -/
def updP {α : Type} (m : α → Bool) (a : α) : List α → List α
  | [] => [a]
  | e :: xs => if m e then a :: xs else e :: updP m a xs

/-- Apply a list of replace-or-append rules from left to right. -/
def updAllP {α : Type} (xs : List α) (rules : List ((α → Bool) × α)) : List α :=
  rules.foldl (fun acc r => updP r.1 r.2 acc) xs

/-- No byte of the string is NUL. -/
def nulFree (s : CStr) : Bool := s.all (fun b => b != 0)

/-- Two variable names are NUL-free and neither of `k=`, `k'=` starts the other. -/
def sepKeys (k k' : CStr) : Bool :=
  nulFree k && nulFree k' && !(k ++ [61]).isPrefixOf (k' ++ [61]) &&
    !(k' ++ [61]).isPrefixOf (k ++ [61])

/-- The replace-or-append rule of one call of `bear_update_environ`. -/
def ruleOf (kv : CStr × CStr) : (CStr → Bool) × CStr :=
  (fun e => entry_matches e kv.1 (strlen kv.1), assignment kv.1 kv.2)

/-- Two rules do not interfere: neither new entry is matched by the other rule, and no
element is matched by both. -/
def Indep {α : Type} (r s : (α → Bool) × α) : Prop :=
  s.1 r.2 = false ∧ r.1 s.2 = false ∧ ∀ e, r.1 e = true → s.1 e = false

/-- The tracked variables the propagation loop reaches, with their captured values:
the leading slots of the capture that hold a value. -/
def applied : List CStr → bear_env_t → List (CStr × CStr)
  | key :: names, some value :: env => (key, value) :: applied names env
  | _, _ => []

/-! ## Capturing and releasing the tracked variables -/

/-- Loop of `bear_capture_env_t` over `env_names`, from index `it`, with the running
`status`; `getenv` is the process environment as `getenv` reads it, and `alloc it` tells
whether the `strdup` of iteration `it` succeeds. -/
def bear_capture_env_t_loop (getenv : CStr → Option CStr) (alloc : Nat → Bool) :
    List CStr → Nat → bear_env_t → Int → bear_env_t × Int
  | [], _, env, status => (env, status)
  | name :: names, it, env, status =>
    let env_value := getenv name
    let env_copy :=
      match env_value with
      | some v => strdup_or_null (alloc it) v
      | none => none
    bear_capture_env_t_loop getenv alloc names (it + 1) (env.set it env_copy)
      (Int.land status (if env_copy.isSome then 1 else 0))

/-- Function `bear_capture_env_t`: the filled capture and the returned status. -/
def bear_capture_env_t (apple : Bool) (getenv : CStr → Option CStr) (alloc : Nat → Bool)
    (env : bear_env_t) : bear_env_t × Int :=
  bear_capture_env_t_loop getenv alloc (env_names apple) 0 env 1

/-- Function `bear_release_env_t`: every slot is freed and set to null. -/
def bear_release_env_t (apple : Bool) (env : bear_env_t) : bear_env_t :=
  (List.range (ENV_SIZE apple)).foldl (fun env it => env.set it none) env

/-- Constructor `on_load`. -/
def on_load (apple : Bool) (getenv : CStr → Option CStr) (alloc : Nat → Bool)
    (g : Globals) : Globals :=
  if g.initialized = 0 then
    let r := bear_capture_env_t apple getenv alloc g.initial_env
    { initialized := r.2, initial_env := r.1 }
  else g

/-- Destructor `on_unload`. -/
def on_unload (apple : Bool) (g : Globals) : Globals :=
  { initialized := 0, initial_env := bear_release_env_t apple g.initial_env }

/-- One run of a loader hook; `load` carries the process environment of that moment and
which of the copies made by the capture succeed. -/
inductive Hook where
  | load (getenv : CStr → Option CStr) (alloc : Nat → Bool)
  | unload

/-- The effect of a hook on the statics. -/
def Hook.run (apple : Bool) (g : Globals) : Hook → Globals
  | .load getenv alloc => on_load apple getenv alloc g
  | .unload => on_unload apple g

/-- The statics after a sequence of hooks, starting from the loaded image. -/
def reached (apple : Bool) (hooks : List Hook) : Globals :=
  hooks.foldl (Hook.run apple) (Globals.init apple)

/-! ## Writing the report -/

/-- The switch of `bear_write_json_string` on one byte `current`. -/
def bear_write_json_char (current : Nat) (fd : FILE) : FILE :=
  if current = 8 then fputs (cstr "\\b") fd
  else if current = 12 then fputs (cstr "\\f") fd
  else if current = 10 then fputs (cstr "\\n") fd
  else if current = 13 then fputs (cstr "\\r") fd
  else if current = 9 then fputs (cstr "\\t") fd
  else if current = 34 ∨ current = 92 then fputc current (fputc 92 fd)
  else fputc current fd

/-- Loop of `bear_write_json_string` over the bytes of `word`. -/
def bear_write_json_loop : CStr → FILE → FILE
  | [], fd => fd
  | current :: it, fd => bear_write_json_loop it (bear_write_json_char current fd)

/-- Function `bear_write_json_string`. -/
def bear_write_json_string (word : CStr) (fd : FILE) : FILE :=
  fputc 34 (bear_write_json_loop word (fputc 34 fd))

/-- Ways the library ends the process: the `exit(EXIT_FAILURE)` branches, and the read of
a null `initial_env[0]` by `strlen`. -/
inductive Fatal where
  | getcwd
  | fopen
  | fclose
  | dlsym
  | null_out_dir
  deriving DecidableEq, Repr

/-- The files the process sees: the bytes of each existing file, and whether the process
may open a path for writing. -/
structure FileSystem where
  content : CStr → Option (List Nat)
  writable : CStr → Bool

/-- What the operating system answers during one call: `getpid`, `getcwd(NULL, 0)`
(`none` on failure) and whether `fclose` succeeds. -/
structure Host where
  pid : Int
  cwd : Option CStr
  fclose_ok : Bool

/-- Libc `access(path, W_OK)`: 0 for an existing file the process may write, else -1. -/
def access_W_OK (fs : FileSystem) (path : CStr) : Int :=
  if (fs.content path).isSome && fs.writable path then 0 else -1

/-- The file system with `bytes` stored at `path`. -/
def FileSystem.store (fs : FileSystem) (path : CStr) (bytes : List Nat) : FileSystem :=
  { fs with content := fun p => if p = path then some bytes else fs.content p }

/-- Libc `fopen(path, "w+")`: creates or truncates the file; `none` on failure. -/
def fopen_w (fs : FileSystem) (path : CStr) : Option FileSystem :=
  if fs.writable path then some (fs.store path []) else none

/-- Expansion of the format `"%s/%d_%d.json"`. -/
def report_path (out_dir : CStr) (pid : Int) (idx : Int) : CStr :=
  out_dir ++ 47 :: fmt_d pid ++ 95 :: fmt_d idx ++ cstr ".json"

/-- The file-name loop of `bear_report_call`: the first argument counts the iterations
left until `idx` is 100, the last is the buffer `filename`. -/
def bear_report_call_filename (fs : FileSystem) (out_dir : CStr) (pid : Int)
    (path_max_length : Nat) : Nat → Nat → CStr → CStr
  | 0, _, filename => filename
  | left + 1, idx, _ =>
    let filename := snprintf path_max_length (report_path out_dir pid idx)
    if access_W_OK fs filename = -1 then filename
    else bear_report_call_filename fs out_dir pid path_max_length left (idx + 1) filename

/-- The loop of `bear_report_call` over `argv`; `first` tells `it == argv`. -/
def bear_report_call_argv : StrArr → Bool → FILE → FILE
  | some word :: it, first, fd =>
    bear_report_call_argv it false
      (bear_write_json_string word (if first then fd else fputc 44 fd))
  | _, _, fd => fd

/-- The bytes `bear_report_call` writes to the opened file. -/
def bear_report_call_text (pid : Int) (argv : Option StrArr) (cwd : CStr) : FILE :=
  let fd : FILE := []
  let fd := fputs (cstr "\x7b \"pid\": " ++ fmt_d pid ++ cstr ", \"cmd\": [") fd
  let fd := bear_report_call_argv (argv.getD []) true fd
  let fd := fputs (cstr "], \"cwd\": ") fd
  let fd := bear_write_json_string cwd fd
  fputc 125 fd

/-- Function `bear_report_call`: the file system after the call, or the fatal exit. -/
def bear_report_call (g : Globals) (h : Host) (fs : FileSystem) (argv : Option StrArr) :
    Except Fatal FileSystem :=
  if g.initialized = 0 then .ok fs
  else
    match h.cwd with
    | none => .error .getcwd
    | some cwd =>
      match g.initial_env.getD 0 none with
      | none => .error .null_out_dir
      | some out_dir =>
        let path_max_length := strlen out_dir + 32
        let filename :=
          bear_report_call_filename fs out_dir h.pid path_max_length 100 0 []
        match fopen_w fs filename with
        | none => .error .fopen
        | some fs =>
          let fd := bear_report_call_text h.pid argv cwd
          if h.fclose_ok then .ok (fs.store filename fd) else .error .fclose

/-! ## Interception and delegation -/

/-- The type of the real `execve` found by `dlsym(RTLD_NEXT, ...)`: path, argv, envp to
the returned `int`. -/
abbrev RealExecve := CStr → Option StrArr → Option StrArr → Int

/-- Function `call_execve`; `dlsym` is the lookup of the macro `DLSYM`. -/
def call_execve (apple : Bool) (dlsym : CStr → Option RealExecve) (g : Globals)
    (path : CStr) (argv envp : Option StrArr) : Except Fatal Int :=
  match dlsym (cstr "execve") with
  | none => .error .dlsym
  | some fp =>
    let menvp := bear_update_environment apple envp g.initial_env
    .ok (fp path argv (some menvp))

/-- The interposed `execve`: the value returned and the file system left behind. -/
def execve (apple : Bool) (dlsym : CStr → Option RealExecve) (g : Globals) (h : Host)
    (fs : FileSystem) (path : CStr) (argv envp : Option StrArr) :
    Except Fatal (Int × FileSystem) :=
  match bear_report_call g h fs argv with
  | .error e => .error e
  | .ok fs =>
    match call_execve apple dlsym g path argv envp with
    | .error e => .error e
    | .ok result => .ok (result, fs)

/-- The interposed `execv`, which passes the process-wide `environ`. -/
def execv (apple : Bool) (dlsym : CStr → Option RealExecve) (g : Globals) (h : Host)
    (fs : FileSystem) (environ : Option StrArr) (path : CStr) (argv : Option StrArr) :
    Except Fatal (Int × FileSystem) :=
  match bear_report_call g h fs argv with
  | .error e => .error e
  | .ok fs =>
    match call_execve apple dlsym g path argv environ with
    | .error e => .error e
    | .ok result => .ok (result, fs)

/-! ## The decoder of JSON strings used to state the round trip -/

/-- The byte an escape letter stands for, among the escapes the round-trip property
names: `\\`, `\"`, `\b`, `\f`, `\n`, `\r`, `\t`; any other escape is rejected. -/
def json_unescape (c : Nat) : Option Nat :=
  if c = 92 then some 92
  else if c = 34 then some 34
  else if c = 98 then some 8
  else if c = 102 then some 12
  else if c = 110 then some 10
  else if c = 114 then some 13
  else if c = 116 then some 9
  else none

/-- Decoding after the opening quote, following the words of the round-trip property:
the closing quote must end the text, a backslash starts an escape, a control character
(a byte below 0x20) is rejected, any other byte stands for itself. -/
def json_decode_body : List Nat → Option CStr
  | [] => none
  | c :: rest =>
    if c = 34 then (if rest = [] then some [] else none)
    else if c = 92 then
      match rest with
      | [] => none
      | d :: rest' =>
        match json_unescape d, json_decode_body rest' with
        | some b, some s => some (b :: s)
        | _, _ => none
    else if c < 32 then none
    else
      match json_decode_body rest with
      | some s => some (c :: s)
      | none => none

/-- Decoding of a double-quoted JSON string. -/
def json_decode : List Nat → Option CStr
  | [] => none
  | c :: body => if c = 34 then json_decode_body body else none

/-- The statics are well-formed: `initial_env` has `ENV_SIZE` slots, and every slot holds
a value when `initialized` is not 0. -/
def GlobalsOK (apple : Bool) (g : Globals) : Prop :=
  g.initial_env.length = ENV_SIZE apple ∧
    (g.initialized ≠ 0 → ∀ it, it < ENV_SIZE apple → ∃ v, g.initial_env[it]? = some (some v))

/-- The value `bear_capture_env_t` leaves in slot `it` for a variable read as `value`:
a copy of the value when the variable is set and the copy succeeds, else null. -/
def captured (alloc : Nat → Bool) (it : Nat) (value : Option CStr) : Option CStr :=
  match value with
  | some v => if alloc it then some v else none
  | none => none

/-- Texts joined by single commas, none before the first or after the last. -/
def commaSeparated : List (List Nat) → List Nat
  | [] => []
  | w :: ws =>
    match ws with
    | [] => w
    | _ :: _ => w ++ 44 :: commaSeparated ws

/-- The JSON string `bear_write_json_string` writes for a word. -/
def jsonString (word : CStr) : List Nat := bear_write_json_string word []

/-- The escape of one byte as the specification words it: backslash and double quote are
preceded by a backslash; backspace, form feed, newline, carriage return and tab are
written `\b`, `\f`, `\n`, `\r`, `\t`; every other byte stands for itself. -/
def spec_escape_byte (b : Nat) : List Nat :=
  if b = 92 then [92, 92]
  else if b = 34 then [92, 34]
  else if b = 8 then [92, 98]
  else if b = 12 then [92, 102]
  else if b = 10 then [92, 110]
  else if b = 13 then [92, 114]
  else if b = 9 then [92, 116]
  else [b]

/-- The escapes of the bytes of a string, in order. -/
def spec_escape : CStr → List Nat
  | [] => []
  | b :: s => spec_escape_byte b ++ spec_escape s

/-- The JSON string of a word as the specification words it: the escaped bytes between
two double quotes. -/
def spec_json_string (s : CStr) : List Nat := 34 :: (spec_escape s ++ [34])

/-- The file `bear_report_call` opens: the buffer `filename` after the loop. -/
def report_filename (g : Globals) (h : Host) (fs : FileSystem) : CStr :=
  match g.initial_env.getD 0 none with
  | some out_dir =>
    bear_report_call_filename fs out_dir h.pid (strlen out_dir + 32) 100 0 []
  | none => []

/-- The bytes of the file at `path` after a call, `none` when the call ended the process
or no such file exists. -/
def contentAfter (r : Except Fatal FileSystem) (path : CStr) : Option (List Nat) :=
  match r with
  | .ok fs => fs.content path
  | .error _ => none

/-! ## Sample worlds used at concrete inputs -/

/-- Statics of a Linux process whose capture is complete: output directory `/out`. -/
def sampleGlobals : Globals :=
  { initialized := 1, initial_env := [some (cstr "/out"), some (cstr "lib.so")] }

/-- Process 42 in `/tmp/work`, with a working `fclose`. -/
def sampleHost : Host := { pid := 42, cwd := some (cstr "/tmp/work"), fclose_ok := true }

/-- A file system in which exactly the reports `/out/42_0.json` to
`/out/42_<count - 1>.json` exist, each holding the byte 7, and every path may be written. -/
def sampleFiles (count : Nat) : FileSystem :=
  { content := fun p =>
      if (List.range count).any (fun i => p == report_path (cstr "/out") 42 (i : Nat)) then
        some [7]
      else none,
    writable := fun _ => true }
/-! ## Replace-or-append on lists -/

section generic
variable {α : Type}

theorem updP_append_of_not_any (m : α → Bool) (a : α) (xs : List α)
    (h : xs.any m = false) : updP m a xs = xs ++ [a] := by
  induction xs with
  | nil => rfl
  | cons e xs ih =>
    simp only [List.any_cons, Bool.or_eq_false_iff] at h
    simp [updP, h.1, ih h.2]

theorem updP_length (m : α → Bool) (a : α) (xs : List α) :
    (updP m a xs).length = xs.length + (if xs.any m then 0 else 1) := by
  induction xs with
  | nil => rfl
  | cons e xs ih =>
    by_cases he : m e = true
    · simp [updP, he]
    · simp only [Bool.not_eq_true] at he
      simp only [updP, he, Bool.false_eq_true, if_false, List.length_cons, ih, List.any_cons,
        Bool.false_or]
      omega

theorem updP_length_le (m : α → Bool) (a : α) (xs : List α) :
    xs.length ≤ (updP m a xs).length := by
  rw [updP_length]; omega

theorem updP_get_keep (m : α → Bool) (a : α) (xs : List α) (i : Nat) (e : α)
    (h : xs[i]? = some e) (hm : m e = false) : (updP m a xs)[i]? = some e := by
  induction xs generalizing i with
  | nil => simp at h
  | cons x xs ih =>
    cases i with
    | zero =>
      simp only [List.getElem?_cons_zero, Option.some.injEq] at h
      subst h
      simp [updP, hm]
    | succ i =>
      simp only [List.getElem?_cons_succ] at h
      by_cases hx : m x = true
      · simp [updP, hx, h]
      · simp only [Bool.not_eq_true] at hx
        simp [updP, hx, ih i h]

theorem updP_get_cases (m : α → Bool) (a : α) (xs : List α) (i : Nat) (e : α)
    (h : xs[i]? = some e) :
    (updP m a xs)[i]? = some e ∨ (m e = true ∧ (updP m a xs)[i]? = some a) := by
  induction xs generalizing i with
  | nil => simp at h
  | cons x xs ih =>
    cases i with
    | zero =>
      simp only [List.getElem?_cons_zero, Option.some.injEq] at h
      subst h
      by_cases hx : m x = true
      · right; simp [updP, hx]
      · left; simp only [Bool.not_eq_true] at hx; simp [updP, hx]
    | succ i =>
      simp only [List.getElem?_cons_succ] at h
      by_cases hx : m x = true
      · left; simp [updP, hx, h]
      · simp only [Bool.not_eq_true] at hx
        simpa [updP, hx] using ih i h

theorem updP_get_cases_first (m : α → Bool) (a : α) (xs : List α) (i : Nat) (e : α)
    (h : xs[i]? = some e) :
    (updP m a xs)[i]? = some e ∨
      (m e = true ∧ (∀ j, j < i → ∀ x, xs[j]? = some x → m x = false) ∧
        (updP m a xs)[i]? = some a) := by
  induction xs generalizing i with
  | nil => simp at h
  | cons x xs ih =>
    cases i with
    | zero =>
      simp only [List.getElem?_cons_zero, Option.some.injEq] at h
      subst h
      by_cases hx : m x = true
      · right
        exact ⟨hx, fun j hj => absurd hj (Nat.not_lt_zero j), by simp [updP, hx]⟩
      · left; simp only [Bool.not_eq_true] at hx; simp [updP, hx]
    | succ i =>
      simp only [List.getElem?_cons_succ] at h
      by_cases hx : m x = true
      · left; simp [updP, hx, h]
      · simp only [Bool.not_eq_true] at hx
        rcases ih i h with h1 | ⟨h1, h2, h3⟩
        · left; simpa [updP, hx] using h1
        · right
          refine ⟨h1, ?_, by simpa [updP, hx] using h3⟩
          intro j hj y hy
          cases j with
          | zero =>
            simp only [List.getElem?_cons_zero, Option.some.injEq] at hy
            rw [← hy]; exact hx
          | succ j =>
            simp only [List.getElem?_cons_succ] at hy
            exact h2 j (by omega) y hy

theorem updP_get_first (m : α → Bool) (a : α) (xs : List α) (i : Nat) (e : α)
    (h : xs[i]? = some e) (hm : m e = true)
    (hfirst : ∀ j, j < i → ∀ x, xs[j]? = some x → m x = false) :
    (updP m a xs)[i]? = some a := by
  induction xs generalizing i with
  | nil => simp at h
  | cons x xs ih =>
    cases i with
    | zero =>
      simp only [List.getElem?_cons_zero, Option.some.injEq] at h
      subst h
      simp [updP, hm]
    | succ i =>
      simp only [List.getElem?_cons_succ] at h
      have hx : m x = false := hfirst 0 (Nat.succ_pos i) x (by simp)
      have := ih i h (fun j hj y hy => hfirst (j + 1) (by omega) y (by simpa using hy))
      simpa [updP, hx] using this

theorem updP_get_inv (m : α → Bool) (a : α) (xs : List α) (i : Nat) (e : α)
    (h : (updP m a xs)[i]? = some e) : xs[i]? = some e ∨ e = a := by
  induction xs generalizing i with
  | nil =>
    cases i with
    | zero => right; simpa [updP] using h.symm
    | succ i => simp [updP] at h
  | cons x xs ih =>
    by_cases hx : m x = true
    · cases i with
      | zero => right; simpa [updP, hx] using h.symm
      | succ i => left; simpa [updP, hx] using h
    · simp only [Bool.not_eq_true] at hx
      cases i with
      | zero => left; simpa [updP, hx] using h
      | succ i =>
        have : (updP m a xs)[i]? = some e := by simpa [updP, hx] using h
        simpa using ih i this

theorem updP_any_other (m m' : α → Bool) (a : α) (xs : List α)
    (ha : m' a = false) (hd : ∀ e, m e = true → m' e = false) :
    (updP m a xs).any m' = xs.any m' := by
  induction xs with
  | nil => simp [updP, ha]
  | cons x xs ih =>
    by_cases hx : m x = true
    · simp [updP, hx, ha, hd x hx]
    · simp only [Bool.not_eq_true] at hx
      simp [updP, hx, ih]

theorem updP_countP_other (m m' : α → Bool) (a : α) (xs : List α)
    (ha : m' a = false) (hd : ∀ e, m e = true → m' e = false) :
    (updP m a xs).countP m' = xs.countP m' := by
  induction xs with
  | nil => simp [updP, ha]
  | cons x xs ih =>
    by_cases hx : m x = true
    · simp [updP, hx, List.countP_cons, ha, hd x hx]
    · simp only [Bool.not_eq_true] at hx
      simp [updP, hx, List.countP_cons, ih]

theorem updP_countP_self (m : α → Bool) (a : α) (xs : List α) (ha : m a = true) :
    (updP m a xs).countP m = max 1 (xs.countP m) := by
  induction xs with
  | nil => simp [updP, ha]
  | cons x xs ih =>
    by_cases hx : m x = true
    · simp [updP, hx, List.countP_cons, ha]
    · simp only [Bool.not_eq_true] at hx
      simp [updP, hx, List.countP_cons, ih]

theorem updP_updP_self (m : α → Bool) (a : α) (xs : List α) (ha : m a = true) :
    updP m a (updP m a xs) = updP m a xs := by
  induction xs with
  | nil => simp [updP, ha]
  | cons x xs ih =>
    by_cases hx : m x = true
    · simp [updP, hx, ha]
    · simp only [Bool.not_eq_true] at hx
      simp [updP, hx, ih]

theorem updP_fixed_other (m m' : α → Bool) (a a' : α) (xs : List α)
    (ha : m a = true) (h1 : m' a = false) (h2 : m a' = false)
    (hfix : updP m a xs = xs) : updP m a (updP m' a' xs) = updP m' a' xs := by
  induction xs with
  | nil => simp [updP] at hfix
  | cons x xs ih =>
    by_cases hx : m x = true
    · have hxa : x = a := by
        have := hfix
        simp only [updP, hx, if_true, List.cons.injEq] at this
        exact this.1.symm
      subst hxa
      simp [updP, h1, ha]
    · simp only [Bool.not_eq_true] at hx
      have hfix' : updP m a xs = xs := by
        have := hfix
        simpa [updP, hx] using this
      by_cases hx' : m' x = true
      · simp [updP, hx', h2, hfix']
      · simp only [Bool.not_eq_true] at hx'
        simp [updP, hx', hx, ih hfix']


theorem updAllP_cons (xs : List α) (r : (α → Bool) × α) (rules : List ((α → Bool) × α)) :
    updAllP xs (r :: rules) = updAllP (updP r.1 r.2 xs) rules := rfl

theorem updAllP_length_le (rules : List ((α → Bool) × α)) (xs : List α) :
    xs.length ≤ (updAllP xs rules).length := by
  induction rules generalizing xs with
  | nil => exact Nat.le_refl _
  | cons r rules ih =>
    rw [updAllP_cons]
    exact Nat.le_trans (updP_length_le r.1 r.2 xs) (ih _)

theorem updAllP_get_keep (rules : List ((α → Bool) × α)) (xs : List α) (i : Nat) (e : α)
    (h : xs[i]? = some e) (hm : ∀ r ∈ rules, r.1 e = false) :
    (updAllP xs rules)[i]? = some e := by
  induction rules generalizing xs with
  | nil => exact h
  | cons r rules ih =>
    rw [updAllP_cons]
    exact ih _ (updP_get_keep r.1 r.2 xs i e h (hm r (List.mem_cons_self _ _)))
      (fun s hs => hm s (List.mem_cons_of_mem _ hs))

theorem updAllP_get_cases_first (rules : List ((α → Bool) × α))
    (hp : rules.Pairwise Indep) (xs : List α) (i : Nat) (e : α) (h : xs[i]? = some e) :
    (updAllP xs rules)[i]? = some e ∨
      ∃ r ∈ rules, r.1 e = true ∧ (∀ j, j < i → ∀ x, xs[j]? = some x → r.1 x = false) ∧
        (updAllP xs rules)[i]? = some r.2 := by
  induction rules generalizing xs with
  | nil => exact Or.inl h
  | cons s rules ih =>
    rw [List.pairwise_cons] at hp
    rw [updAllP_cons]
    rcases updP_get_cases_first s.1 s.2 xs i e h with h1 | ⟨hm, hfirst, h1⟩
    · rcases ih hp.2 _ h1 with h2 | ⟨r, hr, hrm, hrfirst, h2⟩
      · exact Or.inl h2
      · refine Or.inr ⟨r, List.mem_cons_of_mem _ hr, hrm, ?_, h2⟩
        intro j hj x hx
        rcases updP_get_cases s.1 s.2 xs j x hx with h3 | ⟨h3, _⟩
        · exact hrfirst j hj x h3
        · exact (hp.1 r hr).2.2 x h3
    · exact Or.inr ⟨s, List.mem_cons_self _ _, hm, hfirst,
        updAllP_get_keep rules _ i s.2 h1 (fun t ht => (hp.1 t ht).1)⟩

theorem updAllP_get_first (rules : List ((α → Bool) × α)) (hp : rules.Pairwise Indep)
    (xs : List α) (r : (α → Bool) × α) (hr : r ∈ rules) (i : Nat) (e : α)
    (h : xs[i]? = some e) (hm : r.1 e = true)
    (hfirst : ∀ j, j < i → ∀ x, xs[j]? = some x → r.1 x = false) :
    (updAllP xs rules)[i]? = some r.2 := by
  induction rules generalizing xs with
  | nil => simp at hr
  | cons s rules ih =>
    rw [List.pairwise_cons] at hp
    rw [updAllP_cons]
    rcases List.mem_cons.1 hr with hrs | hrs
    · subst hrs
      exact updAllP_get_keep rules _ i r.2 (updP_get_first r.1 r.2 xs i e h hm hfirst)
        (fun s hs => (hp.1 s hs).1)
    · have hind := hp.1 r hrs
      have hse : s.1 e = false := by
        cases hs : s.1 e with
        | false => rfl
        | true => rw [hind.2.2 e hs] at hm; cases hm
      refine ih hp.2 _ hrs (updP_get_keep s.1 s.2 xs i e h hse) ?_
      intro j hj x hx
      rcases updP_get_inv s.1 s.2 xs j x hx with h1 | h1
      · exact hfirst j hj x h1
      · rw [h1]; exact hind.1

theorem updAllP_get_appended (rules : List ((α → Bool) × α)) (hp : rules.Pairwise Indep)
    (xs : List α) (r : (α → Bool) × α) (hr : r ∈ rules) (hno : xs.any r.1 = false) :
    ∃ i, xs.length ≤ i ∧ (updAllP xs rules)[i]? = some r.2 := by
  induction rules generalizing xs with
  | nil => simp at hr
  | cons s rules ih =>
    rw [List.pairwise_cons] at hp
    rw [updAllP_cons]
    rcases List.mem_cons.1 hr with hrs | hrs
    · subst hrs
      refine ⟨xs.length, Nat.le_refl _, updAllP_get_keep rules _ _ r.2 ?_
        (fun s hs => (hp.1 s hs).1)⟩
      rw [updP_append_of_not_any r.1 r.2 xs hno]
      simp
    · have hind := hp.1 r hrs
      have hany : (updP s.1 s.2 xs).any r.1 = false := by
        rw [updP_any_other s.1 r.1 s.2 xs hind.1 hind.2.2]; exact hno
      obtain ⟨i, hi, hget⟩ := ih hp.2 _ hrs hany
      exact ⟨i, Nat.le_trans (updP_length_le s.1 s.2 xs) hi, hget⟩

theorem updAllP_get_new (rules : List ((α → Bool) × α)) (hp : rules.Pairwise Indep)
    (xs : List α) (i : Nat) (e : α) (hi : xs.length ≤ i)
    (h : (updAllP xs rules)[i]? = some e) :
    ∃ r ∈ rules, e = r.2 ∧ xs.any r.1 = false := by
  induction rules generalizing xs with
  | nil =>
    have : xs[i]? = none := List.getElem?_eq_none hi
    simp [updAllP, this] at h
  | cons s rules ih =>
    rw [List.pairwise_cons] at hp
    rw [updAllP_cons] at h
    cases hany : xs.any s.1 with
    | true =>
      have hlen : (updP s.1 s.2 xs).length ≤ i := by
        rw [updP_length, hany]; simpa using hi
      obtain ⟨r, hr, he, hno⟩ := ih hp.2 _ hlen h
      have hind := hp.1 r hr
      rw [updP_any_other s.1 r.1 s.2 xs hind.1 hind.2.2] at hno
      exact ⟨r, List.mem_cons_of_mem _ hr, he, hno⟩
    | false =>
      rcases Nat.eq_or_lt_of_le hi with heq | hlt
      · have hget : (updP s.1 s.2 xs)[i]? = some s.2 := by
          rw [updP_append_of_not_any s.1 s.2 xs hany, ← heq]; simp
        have := updAllP_get_keep rules _ i s.2 hget (fun t ht => (hp.1 t ht).1)
        rw [this] at h
        exact ⟨s, List.mem_cons_self _ _, (Option.some.inj h).symm, hany⟩
      · have hlen : (updP s.1 s.2 xs).length ≤ i := by
          rw [updP_length, hany]; simp; omega
        obtain ⟨r, hr, he, hno⟩ := ih hp.2 _ hlen h
        have hind := hp.1 r hr
        rw [updP_any_other s.1 r.1 s.2 xs hind.1 hind.2.2] at hno
        exact ⟨r, List.mem_cons_of_mem _ hr, he, hno⟩

theorem updAllP_length (rules : List ((α → Bool) × α)) (hp : rules.Pairwise Indep)
    (xs : List α) :
    (updAllP xs rules).length =
      xs.length + (rules.filter (fun r => !xs.any r.1)).length := by
  induction rules generalizing xs with
  | nil => simp [updAllP]
  | cons s rules ih =>
    rw [List.pairwise_cons] at hp
    rw [updAllP_cons, ih hp.2, updP_length]
    have hf : rules.filter (fun r => !(updP s.1 s.2 xs).any r.1) =
        rules.filter (fun r => !xs.any r.1) := by
      apply List.filter_congr
      intro r hr
      have hind := hp.1 r hr
      rw [updP_any_other s.1 r.1 s.2 xs hind.1 hind.2.2]
    rw [hf, List.filter_cons]
    cases hany : xs.any s.1
    · simp; omega
    · simp

theorem updAllP_countP (rules : List ((α → Bool) × α)) (m : α → Bool) (xs : List α)
    (h : ∀ r ∈ rules, (r.1 = m ∧ m r.2 = true) ∨
      (m r.2 = false ∧ ∀ e, r.1 e = true → m e = false)) :
    (updAllP xs rules).countP m ≤ max 1 (xs.countP m) := by
  induction rules generalizing xs with
  | nil => exact le_max_right _ _
  | cons s rules ih =>
    rw [updAllP_cons]
    refine le_trans (ih _ (fun r hr => h r (List.mem_cons_of_mem _ hr))) ?_
    rcases h s (List.mem_cons_self _ _) with ⟨h1, h2⟩ | ⟨h1, h2⟩
    · rw [h1, updP_countP_self m s.2 xs h2]; simp
    · rw [updP_countP_other s.1 m s.2 xs h1 h2]

theorem updAllP_fixed (rules : List ((α → Bool) × α)) (xs : List α) (m : α → Bool) (a : α)
    (ha : m a = true) (h : ∀ r ∈ rules, r.1 a = false ∧ m r.2 = false)
    (hfix : updP m a xs = xs) : updP m a (updAllP xs rules) = updAllP xs rules := by
  induction rules generalizing xs with
  | nil => exact hfix
  | cons s rules ih =>
    rw [updAllP_cons]
    have hs := h s (List.mem_cons_self _ _)
    exact ih _ (fun r hr => h r (List.mem_cons_of_mem _ hr))
      (updP_fixed_other m s.1 a s.2 xs ha hs.1 hs.2 hfix)

theorem updAllP_fixes (rules : List ((α → Bool) × α)) (hp : rules.Pairwise Indep)
    (hg : ∀ r ∈ rules, r.1 r.2 = true) (xs : List α) (r : (α → Bool) × α) (hr : r ∈ rules) :
    updP r.1 r.2 (updAllP xs rules) = updAllP xs rules := by
  induction rules generalizing xs with
  | nil => simp at hr
  | cons s rules ih =>
    rw [List.pairwise_cons] at hp
    rw [updAllP_cons]
    rcases List.mem_cons.1 hr with hrs | hrs
    · subst hrs
      exact updAllP_fixed rules _ r.1 r.2 (hg r (List.mem_cons_self _ _))
        (fun s hs => ⟨(hp.1 s hs).1, (hp.1 s hs).2.1⟩)
        (updP_updP_self r.1 r.2 xs (hg r (List.mem_cons_self _ _)))
    · exact ih hp.2 (fun t ht => hg t (List.mem_cons_of_mem _ ht)) _ hrs

theorem updAllP_of_fixed (rules : List ((α → Bool) × α)) (ys : List α)
    (h : ∀ r ∈ rules, updP r.1 r.2 ys = ys) : updAllP ys rules = ys := by
  induction rules with
  | nil => rfl
  | cons s rules ih =>
    rw [updAllP_cons, h s (List.mem_cons_self _ _)]
    exact ih (fun r hr => h r (List.mem_cons_of_mem _ hr))

theorem updAllP_idem (rules : List ((α → Bool) × α)) (hp : rules.Pairwise Indep)
    (hg : ∀ r ∈ rules, r.1 r.2 = true) (xs : List α) :
    updAllP (updAllP xs rules) rules = updAllP xs rules :=
  updAllP_of_fixed rules _ (fun r hr => updAllP_fixes rules hp hg xs r hr)

end generic

/-! ## The array functions on well-formed arrays -/

theorem entries_cells (xs : List CStr) : entries (cells xs) = xs := by
  induction xs with
  | nil => rfl
  | cons x xs ih => simp [cells, entries] at ih ⊢; exact ih

theorem cells_cons (x : CStr) (xs : List CStr) : cells (x :: xs) = some x :: cells xs := rfl

theorem cells_length (xs : List CStr) : (cells xs).length = xs.length + 1 := by
  simp [cells]

theorem bear_strings_length_loop_eq (arr : StrArr) :
    bear_strings_length_loop arr = (entries arr).length := by
  induction arr with
  | nil => rfl
  | cons c arr ih =>
    cases c with
    | none => rfl
    | some s => simp [bear_strings_length_loop, entries, ih]

theorem bear_strings_length_cells (xs : List CStr) :
    bear_strings_length (some (cells xs)) = xs.length := by
  simp [bear_strings_length, bear_strings_length_loop_eq, entries_cells]

theorem bear_strings_copy_loop_eq (arr : StrArr) :
    bear_strings_copy_loop arr = cells (entries arr) := by
  induction arr with
  | nil => rfl
  | cons c arr ih =>
    cases c with
    | none => rfl
    | some s => simp [bear_strings_copy_loop, entries, cells_cons, ih, strdup]

theorem bear_strings_copy_eq (inp : Option StrArr) :
    bear_strings_copy inp = cells (entries (inp.getD [])) :=
  bear_strings_copy_loop_eq _

theorem set_cells_append (xs : List CStr) (e : CStr) :
    ((cells xs ++ [none]).set xs.length (some e)).set (xs.length + 1) none =
      cells (xs ++ [e]) := by
  induction xs with
  | nil => rfl
  | cons x xs ih => simp [cells]

theorem bear_strings_append_cells (xs : List CStr) (e : CStr) :
    bear_strings_append (some (cells xs)) e = cells (xs ++ [e]) := by
  have hr : realloc (some (cells xs)) (xs.length + 2) = cells xs ++ [none] := by
    have h1 : (cells xs).take (xs.length + 2) = cells xs :=
      List.take_of_length_le (by rw [cells_length]; omega)
    have h2 : xs.length + 2 - (cells xs).length = 1 := by rw [cells_length]; omega
    simp [realloc, h1, h2]
  simp only [bear_strings_append, bear_strings_length_cells, hr]
  exact set_cells_append xs e

theorem snprintf_assignment (key value : CStr) :
    snprintf (strlen key + strlen value + 2) (key ++ 61 :: value) = assignment key value := by
  unfold snprintf assignment strlen
  apply List.take_of_length_le
  simp; omega

theorem bear_strings_append_cons (x : CStr) (arr : StrArr) (e : CStr) :
    bear_strings_append (some (some x :: arr)) e =
      some x :: bear_strings_append (some arr) e := by
  have h : bear_strings_length_loop arr + 1 + 2 - (arr.length + 1) =
      bear_strings_length_loop arr + 2 - arr.length := by omega
  simp [bear_strings_append, bear_strings_length, bear_strings_length_loop, realloc, h]

theorem bear_update_environ_hit (x : CStr) (arr : StrArr) (key value : CStr)
    (hx : entry_matches x key (strlen key) = true) :
    bear_update_environ (some (some x :: arr)) key value =
      some (assignment key value) :: arr := by
  simp [bear_update_environ, snprintf_assignment, bear_update_environ_find, hx]

theorem bear_update_environ_miss (x : CStr) (arr : StrArr) (key value : CStr)
    (hx : entry_matches x key (strlen key) = false) :
    bear_update_environ (some (some x :: arr)) key value =
      some x :: bear_update_environ (some arr) key value := by
  simp only [bear_update_environ, snprintf_assignment, Option.getD_some,
    bear_update_environ_find, hx, Bool.false_eq_true, if_false, List.getD_cons_succ,
    List.set_cons_succ]
  split
  · rfl
  · exact bear_strings_append_cons x arr _

theorem bear_update_environ_cells (xs : List CStr) (key value : CStr) :
    bear_update_environ (some (cells xs)) key value =
      cells (updP (fun e => entry_matches e key (strlen key)) (assignment key value) xs) := by
  induction xs with
  | nil => simp [bear_update_environ, snprintf_assignment, cells, bear_update_environ_find,
      bear_strings_append, bear_strings_length, bear_strings_length_loop, realloc, updP]
  | cons x xs ih =>
    rw [cells_cons]
    by_cases hx : entry_matches x key (strlen key) = true
    · rw [bear_update_environ_hit x _ key value hx]
      simp [updP, hx, cells_cons]
    · simp only [Bool.not_eq_true] at hx
      rw [bear_update_environ_miss x _ key value hx, ih]
      simp [updP, hx, cells_cons]

theorem strncmp_eq_zero_iff (key : CStr) (hk : nulFree key = true) (e : CStr) :
    strncmp e key key.length = 0 ↔ key <+: e := by
  induction key generalizing e with
  | nil => simp [strncmp]
  | cons b key ih =>
    have hb : b ≠ 0 := by simp [nulFree] at hk; exact hk.1
    have hk' : nulFree key = true := by simp [nulFree] at hk ⊢; exact hk.2
    cases e with
    | nil =>
      simp only [List.length_cons, strncmp]
      constructor
      · intro h; omega
      · intro h; simp at h
    | cons a e =>
      simp only [List.length_cons, strncmp, List.cons_prefix_cons]
      by_cases hab : a = b
      · subst hab; simp [ih hk' e]
      · simp only [hab, if_false]
        constructor
        · intro h; omega
        · intro h; exact absurd h.1.symm hab

theorem prefix_snoc_iff (key e : CStr) :
    key ++ [61] <+: e ↔ key <+: e ∧ key.length < e.length ∧ e.getD key.length 0 = 61 := by
  induction key generalizing e with
  | nil =>
    cases e with
    | nil => simp
    | cons a e => simp [eq_comm]
  | cons b key ih =>
    cases e with
    | nil => simp
    | cons a e =>
      simp only [List.cons_append, List.cons_prefix_cons, List.length_cons,
        List.getD_cons_succ, ih e]
      constructor
      · rintro ⟨h1, h2, h3, h4⟩; exact ⟨⟨h1, h2⟩, by omega, h4⟩
      · rintro ⟨⟨h1, h2⟩, h3, h4⟩; exact ⟨h1, h2, by omega, h4⟩

theorem entry_matches_eq (key : CStr) (hk : nulFree key = true) (e : CStr) :
    entry_matches e key (strlen key) = startsWithKey key e := by
  rw [Bool.eq_iff_iff]
  simp only [entry_matches, startsWithKey, strlen, charAt, Bool.and_eq_true, beq_iff_eq,
    decide_eq_true_eq, List.isPrefixOf_iff_prefix, prefix_snoc_iff,
    strncmp_eq_zero_iff key hk e]
  constructor
  · rintro ⟨⟨h1, h2⟩, h3⟩; exact ⟨h1, h2, h3⟩
  · rintro ⟨h1, h2, h3⟩; exact ⟨⟨h1, h2⟩, h3⟩

theorem startsWithKey_assignment (key value : CStr) :
    startsWithKey key (assignment key value) = true := by
  simp only [startsWithKey, assignment, List.isPrefixOf_iff_prefix]
  exact ⟨value, by simp⟩

theorem startsWithKey_disjoint (k k' : CStr) (hs : sepKeys k k' = true) (e : CStr)
    (h : startsWithKey k e = true) : startsWithKey k' e = false := by
  simp only [sepKeys, Bool.and_eq_true, Bool.not_eq_true', List.isPrefixOf_iff_prefix] at hs
  cases h' : startsWithKey k' e with
  | false => rfl
  | true =>
    simp only [startsWithKey, List.isPrefixOf_iff_prefix] at h h'
    have h1 : ¬ (k ++ [61] <+: k' ++ [61]) := by
      intro hc; have := List.isPrefixOf_iff_prefix.2 hc; rw [hs.1.2] at this; cases this
    have h2 : ¬ (k' ++ [61] <+: k ++ [61]) := by
      intro hc; have := List.isPrefixOf_iff_prefix.2 hc; rw [hs.2] at this; cases this
    rcases List.prefix_or_prefix_of_prefix h h' with hc | hc
    · exact absurd hc h1
    · exact absurd hc h2

theorem sepKeys_symm (k k' : CStr) (hs : sepKeys k k' = true) : sepKeys k' k = true := by
  simp only [sepKeys, Bool.and_eq_true] at hs ⊢
  exact ⟨⟨⟨hs.1.1.2, hs.1.1.1⟩, hs.2⟩, hs.1.2⟩

theorem ruleOf_fst (k v : CStr) (hk : nulFree k = true) :
    (ruleOf (k, v)).1 = startsWithKey k := by
  funext e; exact entry_matches_eq k hk e

theorem ruleOf_good (k v : CStr) (hk : nulFree k = true) :
    (ruleOf (k, v)).1 (ruleOf (k, v)).2 = true := by
  rw [ruleOf_fst k v hk]; exact startsWithKey_assignment k v

theorem ruleOf_indep (k v k' v' : CStr) (hs : sepKeys k k' = true) :
    Indep (ruleOf (k, v)) (ruleOf (k', v')) := by
  have hk : nulFree k = true := by
    simp only [sepKeys, Bool.and_eq_true] at hs; exact hs.1.1.1
  have hk' : nulFree k' = true := by
    simp only [sepKeys, Bool.and_eq_true] at hs; exact hs.1.1.2
  rw [Indep, ruleOf_fst k v hk, ruleOf_fst k' v' hk']
  exact ⟨startsWithKey_disjoint k k' hs _ (startsWithKey_assignment k v),
    startsWithKey_disjoint k' k (sepKeys_symm k k' hs) _ (startsWithKey_assignment k' v'),
    fun e he => startsWithKey_disjoint k k' hs e he⟩

/-! ## Environment propagation: the loop as a list of rules -/

theorem bear_update_environment_loop_cells (names : List CStr) (env : bear_env_t)
    (xs : List CStr) :
    bear_update_environment_loop names env (cells xs) =
      cells (updAllP xs ((applied names env).map ruleOf)) := by
  induction names generalizing env xs with
  | nil => cases env <;> rfl
  | cons k names ih =>
    cases env with
    | nil => rfl
    | cons c env =>
      cases c with
      | none => rfl
      | some v =>
        simp only [bear_update_environment_loop, applied, List.map_cons, updAllP_cons,
          bear_update_environ_cells, ih]
        rfl

theorem bear_update_environment_eq (apple : Bool) (envp : Option StrArr) (env : bear_env_t) :
    bear_update_environment apple envp env =
      cells (updAllP (entries (envp.getD [])) ((applied (env_names apple) env).map ruleOf)) := by
  rw [bear_update_environment, bear_strings_copy_eq, bear_update_environment_loop_cells]

theorem entries_bear_update_environment (apple : Bool) (envp : Option StrArr)
    (env : bear_env_t) :
    entries (bear_update_environment apple envp env) =
      updAllP (entries (envp.getD [])) ((applied (env_names apple) env).map ruleOf) := by
  rw [bear_update_environment_eq, entries_cells]

theorem applied_mem_names (names : List CStr) (env : bear_env_t) (kv : CStr × CStr)
    (h : kv ∈ applied names env) : kv.1 ∈ names := by
  induction names generalizing env with
  | nil => cases env <;> simp [applied] at h
  | cons k names ih =>
    cases env with
    | nil => simp [applied] at h
    | cons c env =>
      cases c with
      | none => simp [applied] at h
      | some v =>
        simp only [applied, List.mem_cons] at h
        rcases h with h | h
        · subst h; exact List.mem_cons_self _ _
        · exact List.mem_cons_of_mem _ (ih env h)

theorem applied_pairwise (R : CStr → CStr → Prop) (names : List CStr) (env : bear_env_t)
    (h : names.Pairwise R) : (applied names env).Pairwise (fun p q => R p.1 q.1) := by
  induction names generalizing env with
  | nil => cases env <;> simp [applied]
  | cons k names ih =>
    rw [List.pairwise_cons] at h
    cases env with
    | nil => simp [applied]
    | cons c env =>
      cases c with
      | none => simp [applied]
      | some v =>
        simp only [applied, List.pairwise_cons]
        exact ⟨fun q hq => h.1 q.1 (applied_mem_names names env q hq), ih env h.2⟩

theorem applied_mem_of_index (names : List CStr) (env : bear_env_t) (it : Nat)
    (name value : CStr) (hname : names[it]? = some name)
    (hvalue : env[it]? = some (some value))
    (hbefore : ∀ j, j < it → ∃ w, env[j]? = some (some w)) :
    (name, value) ∈ applied names env := by
  induction names generalizing env it with
  | nil => simp at hname
  | cons k names ih =>
    cases env with
    | nil => simp at hvalue
    | cons c env =>
      cases it with
      | zero =>
        simp only [List.getElem?_cons_zero, Option.some.injEq] at hname hvalue
        subst hname; subst hvalue
        simp [applied]
      | succ it =>
        obtain ⟨w, hw⟩ := hbefore 0 (Nat.succ_pos it)
        simp only [List.getElem?_cons_zero, Option.some.injEq] at hw
        subst hw
        simp only [List.getElem?_cons_succ] at hname hvalue
        simp only [applied, List.mem_cons]
        right
        exact ih env it hname hvalue
          (fun j hj => by simpa using hbefore (j + 1) (by omega))

theorem env_names_pairwise (apple : Bool) :
    (env_names apple).Pairwise (fun k k' => sepKeys k k' = true) := by
  cases apple <;> decide

theorem env_names_nulFree (apple : Bool) : ∀ k ∈ env_names apple, nulFree k = true := by
  cases apple <;> decide

theorem env_names_eq_or_sep (apple : Bool) :
    ∀ k ∈ env_names apple, ∀ k' ∈ env_names apple, k = k' ∨ sepKeys k k' = true := by
  cases apple <;> decide

theorem rules_pairwise (apple : Bool) (env : bear_env_t) :
    ((applied (env_names apple) env).map ruleOf).Pairwise Indep := by
  rw [List.pairwise_map]
  exact (applied_pairwise _ _ env (env_names_pairwise apple)).imp
    (fun {p q} h => ruleOf_indep p.1 p.2 q.1 q.2 h)

theorem rules_good (apple : Bool) (env : bear_env_t) :
    ∀ r ∈ (applied (env_names apple) env).map ruleOf, r.1 r.2 = true := by
  intro r hr
  obtain ⟨kv, hkv, rfl⟩ := List.mem_map.1 hr
  exact ruleOf_good kv.1 kv.2
    (env_names_nulFree apple kv.1 (applied_mem_names _ _ kv hkv))

theorem rule_fst_of_applied (apple : Bool) (env : bear_env_t) (kv : CStr × CStr)
    (h : kv ∈ applied (env_names apple) env) : (ruleOf kv).1 = startsWithKey kv.1 :=
  ruleOf_fst kv.1 kv.2 (env_names_nulFree apple kv.1 (applied_mem_names _ _ kv h))

theorem any_eq_false_of_forall (m : CStr → Bool) (xs : List CStr)
    (h : ∀ e ∈ xs, m e = false) : xs.any m = false := by
  cases hany : xs.any m with
  | false => rfl
  | true =>
    obtain ⟨e, he, hm⟩ := List.any_eq_true.1 hany
    rw [h e he] at hm; cases hm

theorem forall_of_any_eq_false (m : CStr → Bool) (xs : List CStr)
    (h : xs.any m = false) : ∀ e ∈ xs, m e = false := by
  intro e he
  cases hm : m e with
  | false => rfl
  | true =>
    have : xs.any m = true := List.any_eq_true.2 ⟨e, he, hm⟩
    rw [h] at this; cases this

/-! ## JSON strings -/

theorem bear_write_json_char_eq (c : Nat) (fd : FILE) :
    bear_write_json_char c fd = fd ++ bear_write_json_char c [] := by
  unfold bear_write_json_char fputs fputc
  repeat' split
  all_goals simp

theorem bear_write_json_loop_eq (word : CStr) (fd : FILE) :
    bear_write_json_loop word fd = fd ++ bear_write_json_loop word [] := by
  induction word generalizing fd with
  | nil => simp [bear_write_json_loop]
  | cons c word ih =>
    simp only [bear_write_json_loop]
    rw [ih (bear_write_json_char c fd), ih (bear_write_json_char c []),
      bear_write_json_char_eq c fd, List.append_assoc]

theorem bear_write_json_loop_cons (c : Nat) (word : CStr) :
    bear_write_json_loop (c :: word) [] =
      bear_write_json_char c [] ++ bear_write_json_loop word [] := by
  simp only [bear_write_json_loop]
  exact bear_write_json_loop_eq word _

theorem bear_write_json_string_eq (word : CStr) (fd : FILE) :
    bear_write_json_string word fd = fd ++ 34 :: (bear_write_json_loop word [] ++ [34]) := by
  unfold bear_write_json_string fputc
  rw [bear_write_json_loop_eq]
  simp

theorem json_decode_body_plain (c : Nat) (rest : List Nat) (h34 : c ≠ 34) (h92 : c ≠ 92)
    (hlt : ¬ c < 32) :
    json_decode_body (c :: rest) =
      match json_decode_body rest with
      | some s => some (c :: s)
      | none => none := by
  cases rest <;> simp [json_decode_body, h34, h92, hlt]

theorem json_decode_body_escape (d : Nat) (rest : List Nat) :
    json_decode_body (92 :: d :: rest) =
      match json_unescape d, json_decode_body rest with
      | some b, some s => some (b :: s)
      | _, _ => none := by
  simp [json_decode_body]

theorem json_decode_body_escaped (c d : Nat) (rest : List Nat)
    (hw : bear_write_json_char c [] = [92, d]) (hu : json_unescape d = some c) :
    json_decode_body (bear_write_json_char c [] ++ rest) =
      match json_decode_body rest with
      | some s => some (c :: s)
      | none => none := by
  rw [hw, List.cons_append, List.cons_append, List.nil_append, json_decode_body_escape, hu]
  cases json_decode_body rest <;> rfl

theorem json_decode_body_char (c : Nat) (rest : List Nat)
    (hc : 32 ≤ c ∨ c = 8 ∨ c = 9 ∨ c = 10 ∨ c = 12 ∨ c = 13) :
    json_decode_body (bear_write_json_char c [] ++ rest) =
      match json_decode_body rest with
      | some s => some (c :: s)
      | none => none := by
  by_cases h8 : c = 8
  · subst h8; exact json_decode_body_escaped 8 98 rest (by decide) (by decide)
  by_cases h12 : c = 12
  · subst h12; exact json_decode_body_escaped 12 102 rest (by decide) (by decide)
  by_cases h10 : c = 10
  · subst h10; exact json_decode_body_escaped 10 110 rest (by decide) (by decide)
  by_cases h13 : c = 13
  · subst h13; exact json_decode_body_escaped 13 114 rest (by decide) (by decide)
  by_cases h9 : c = 9
  · subst h9; exact json_decode_body_escaped 9 116 rest (by decide) (by decide)
  by_cases h34 : c = 34
  · subst h34; exact json_decode_body_escaped 34 34 rest (by decide) (by decide)
  by_cases h92 : c = 92
  · subst h92; exact json_decode_body_escaped 92 92 rest (by decide) (by decide)
  have hlt : ¬ c < 32 := by omega
  have hw : bear_write_json_char c [] = [c] := by
    simp [bear_write_json_char, fputc, h8, h12, h10, h13, h9, h34, h92]
  rw [hw]
  exact json_decode_body_plain c rest h34 h92 hlt

theorem json_decode_body_loop (word : CStr)
    (h : ∀ b ∈ word, 32 ≤ b ∨ b = 8 ∨ b = 9 ∨ b = 10 ∨ b = 12 ∨ b = 13) :
    json_decode_body (bear_write_json_loop word [] ++ [34]) = some word := by
  induction word with
  | nil => simp [bear_write_json_loop, json_decode_body]
  | cons c word ih =>
    rw [bear_write_json_loop_cons, List.append_assoc,
      json_decode_body_char c _ (h c (List.mem_cons_self _ _)),
      ih (fun b hb => h b (List.mem_cons_of_mem _ hb))]

/-- C5, as stated, fails: the NUL-free one-byte string `\x01` is written verbatim between
the quotes, and a decoder that rejects control characters rejects that text. -/
theorem bear_write_json_string_control_byte :
    (∀ b ∈ ([1] : CStr), b ≠ 0 ∧ b < 256) ∧
    bear_write_json_string [1] [] = [34, 1, 34] ∧
    json_decode (bear_write_json_string [1] []) = none := by
  decide

/-- C5, amended: for every byte string whose bytes below 0x20 are all among backspace,
tab, newline, form feed and carriage return (so NUL-free), the text written by
`bear_write_json_string` starts and ends with a double quote and decodes back to exactly
that string. -/
theorem bear_write_json_string_roundtrip (s : CStr)
    (h : ∀ b ∈ s, 32 ≤ b ∨ b = 8 ∨ b = 9 ∨ b = 10 ∨ b = 12 ∨ b = 13) :
    (∃ body, bear_write_json_string s [] = 34 :: (body ++ [34])) ∧
    json_decode (bear_write_json_string s []) = some s := by
  rw [bear_write_json_string_eq]
  refine ⟨⟨_, rfl⟩, ?_⟩
  simp only [List.nil_append, json_decode, if_true]
  exact json_decode_body_loop s h

/-- Witness for `bear_write_json_string_roundtrip`: a string with a quote, a backslash, a
newline and a tab. -/
theorem bear_write_json_string_roundtrip_witness :
    json_decode (bear_write_json_string (cstr "a\"b\\c\n\t") []) = some (cstr "a\"b\\c\n\t") :=
  (bear_write_json_string_roundtrip (cstr "a\"b\\c\n\t") (by decide)).2

/-! ## Building an array from variadic arguments -/

theorem realloc_set_snoc (result : Option StrArr) (ys : List CStr) (c : Option CStr)
    (h : result.getD [] = ys.map some) :
    (realloc result (ys.length + 1)).set ys.length c = ys.map some ++ [c] := by
  have h1 : (ys.map some).take (ys.length + 1) = ys.map some :=
    List.take_of_length_le (by simp)
  have h2 : ys.length + 1 - (ys.map some).length = 1 := by simp
  rw [realloc, h, h1, h2]
  have h3 : ys.length = (ys.map some).length := by simp
  rw [h3, List.set_append_right _ _ (Nat.le_refl _)]
  simp

theorem bear_strings_build_loop_spec (ap : List (Option CStr)) (it : Option CStr)
    (result : Option StrArr) (ys : List CStr) (h : result.getD [] = ys.map some) :
    (bear_strings_build_loop it ap result ys.length).1.getD [] =
        (ys ++ entries (it :: ap)).map some ∧
      (bear_strings_build_loop it ap result ys.length).2.1 =
        (ys ++ entries (it :: ap)).length ∧
      (bear_strings_build_loop it ap result ys.length).2.2 =
        (it :: ap).drop ((entries (it :: ap)).length + 1) := by
  induction ap generalizing it result ys with
  | nil =>
    cases it with
    | none => simp [bear_strings_build_loop, entries, h]
    | some s =>
      simp only [bear_strings_build_loop, strdup, realloc_set_snoc result ys _ h]
      simp [entries]
  | cons a ap ih =>
    cases it with
    | none => simp [bear_strings_build_loop, entries, h]
    | some s =>
      have hstep := ih a (some ((realloc result (ys.length + 1)).set ys.length (some s)))
        (ys ++ [s]) (by rw [Option.getD_some, realloc_set_snoc result ys _ h]; simp)
      simp only [List.length_append, List.length_singleton] at hstep
      simp only [bear_strings_build_loop, strdup]
      refine ⟨?_, ?_, ?_⟩
      · rw [hstep.1]; simp [entries]
      · rw [hstep.2.1]; simp [entries]; omega
      · rw [hstep.2.2]; simp [entries]

/-- C8: `bear_strings_build` returns an array holding copies of exactly the arguments
before the first null, in call order, followed by one terminating null; its length as
`bear_strings_length` counts it is the number of those arguments (0 when the first
argument is null); the arguments left in the `va_list` are those after the sentinel; and
the call `(a, b, c, sentinel)` yields `a`, `b`, `c` and the null. -/
theorem bear_strings_build_spec (arg : Option CStr) (args : List (Option CStr)) :
    (bear_strings_build arg args).1 = (entries (arg :: args)).map some ++ [none] ∧
    entries (bear_strings_build arg args).1 = entries (arg :: args) ∧
    bear_strings_length (some (bear_strings_build arg args).1) =
      (entries (arg :: args)).length ∧
    (bear_strings_build arg args).2 =
      (arg :: args).drop ((entries (arg :: args)).length + 1) ∧
    (bear_strings_build none args).1 = [none] ∧
    (∀ a b c : CStr, ∀ rest : List (Option CStr),
      (bear_strings_build (some a) (some b :: some c :: none :: rest)).1 =
        [some a, some b, some c, none]) := by
  have key : ∀ (arg : Option CStr) (args : List (Option CStr)),
      (bear_strings_build arg args).1 = cells (entries (arg :: args)) := by
    intro arg args
    have hl := bear_strings_build_loop_spec args arg none [] rfl
    simp only [List.length_nil, List.nil_append] at hl
    simp only [bear_strings_build]
    rw [hl.2.1]
    exact realloc_set_snoc _ _ none hl.1
  refine ⟨key arg args, ?_, ?_, ?_, ?_, ?_⟩
  · rw [key, entries_cells]
  · rw [key, bear_strings_length_cells]
  · have hl := bear_strings_build_loop_spec args arg none [] rfl
    simp only [List.length_nil, List.nil_append] at hl
    simp only [bear_strings_build]
    exact hl.2.2
  · rw [key]; rfl
  · intro a b c rest
    rw [key]; rfl

/-! ## The captured environment -/

theorem land_flag (status : Int) (hs : status = 0 ∨ status = 1) (b : Bool) :
    (Int.land status (if b = true then 1 else 0) = 0 ∨
      Int.land status (if b = true then 1 else 0) = 1) ∧
    (Int.land status (if b = true then 1 else 0) = 1 ↔ status = 1 ∧ b = true) := by
  rcases hs with h | h <;> subst h <;> cases b <;> decide

theorem captured_isSome (alloc : Nat → Bool) (it : Nat) (value : Option CStr) :
    (captured alloc it value).isSome = true ↔ ∃ v, value = some v ∧ alloc it = true := by
  cases value with
  | none => simp [captured]
  | some v => cases h : alloc it <;> simp [captured, h]

theorem captured_of_alloc (alloc : Nat → Bool) (it : Nat) (value : Option CStr)
    (h : alloc it = true) : captured alloc it value = value := by
  cases value <;> simp [captured, h]

theorem bear_capture_env_t_loop_spec (getenv : CStr → Option CStr) (alloc : Nat → Bool)
    (names : List CStr) (it : Nat) (env : bear_env_t) (status : Int)
    (hs : status = 0 ∨ status = 1) (hlen : it + names.length ≤ env.length) :
    (bear_capture_env_t_loop getenv alloc names it env status).1.length = env.length ∧
    (∀ j, j < it →
      (bear_capture_env_t_loop getenv alloc names it env status).1[j]? = env[j]?) ∧
    (∀ (i : Nat) (name : CStr), names[i]? = some name →
      (bear_capture_env_t_loop getenv alloc names it env status).1[it + i]? =
        some (captured alloc (it + i) (getenv name))) ∧
    ((bear_capture_env_t_loop getenv alloc names it env status).2 = 1 ↔
      status = 1 ∧ ∀ (i : Nat) (name : CStr), names[i]? = some name →
        ∃ v, getenv name = some v ∧ alloc (it + i) = true) ∧
    ((bear_capture_env_t_loop getenv alloc names it env status).2 = 0 ∨
      (bear_capture_env_t_loop getenv alloc names it env status).2 = 1) := by
  induction names generalizing it env status with
  | nil => simp [bear_capture_env_t_loop, hs]
  | cons name names ih =>
    simp only [List.length_cons] at hlen
    have hcopy : (match getenv name with
        | some v => strdup_or_null (alloc it) v
        | none => none) = captured alloc it (getenv name) := by
      cases getenv name <;> simp [captured, strdup_or_null, strdup]
    simp only [bear_capture_env_t_loop, hcopy]
    have hs' := (land_flag status hs (captured alloc it (getenv name)).isSome).1
    have hstat : Int.land status
        (if (captured alloc it (getenv name)).isSome = true then 1 else 0) = 1 ↔
        status = 1 ∧ ∃ v, getenv name = some v ∧ alloc it = true := by
      rw [(land_flag status hs (captured alloc it (getenv name)).isSome).2, captured_isSome]
    obtain ⟨h1, h2, h3, h4, h5⟩ := ih (it + 1)
      (env.set it (captured alloc it (getenv name))) _ hs' (by rw [List.length_set]; omega)
    refine ⟨by rw [h1, List.length_set], ?_, ?_, ?_, h5⟩
    · intro j hj
      rw [h2 j (by omega), List.getElem?_set_ne (by omega)]
    · intro i nm hi
      cases i with
      | zero =>
        simp only [List.getElem?_cons_zero, Option.some.injEq] at hi
        subst hi
        have hget := h2 it (by omega)
        rw [List.getElem?_set_self (by omega)] at hget
        exact hget
      | succ i =>
        simp only [List.getElem?_cons_succ] at hi
        have := h3 i nm hi
        rw [show it + (i + 1) = it + 1 + i by omega]
        exact this
    · rw [h4, hstat]
      constructor
      · rintro ⟨⟨hst, hhead⟩, htail⟩
        refine ⟨hst, fun i nm hi => ?_⟩
        cases i with
        | zero =>
          simp only [List.getElem?_cons_zero, Option.some.injEq] at hi
          subst hi
          exact hhead
        | succ i =>
          simp only [List.getElem?_cons_succ] at hi
          have := htail i nm hi
          rw [show it + (i + 1) = it + 1 + i by omega]
          exact this
      · rintro ⟨hst, hall⟩
        refine ⟨⟨hst, hall 0 name (by simp)⟩, fun i nm hi => ?_⟩
        have := hall (i + 1) nm (by simpa using hi)
        rw [show it + (i + 1) = it + 1 + i by omega] at this
        exact this

theorem env_names_length (apple : Bool) : (env_names apple).length = ENV_SIZE apple := by
  cases apple <;> rfl

theorem range_foldl_set_none (n : Nat) (env : bear_env_t) :
    ((List.range n).foldl (fun env it => env.set it none) env).length = env.length ∧
    ∀ it, it < n → it < env.length →
      ((List.range n).foldl (fun env it => env.set it none) env)[it]? = some none := by
  induction n with
  | zero => simp
  | succ n ih =>
    rw [List.range_succ, List.foldl_append]
    simp only [List.foldl_cons, List.foldl_nil, List.length_set]
    refine ⟨ih.1, fun it hit hlen => ?_⟩
    by_cases h : it = n
    · subst h
      rw [List.getElem?_set_self (by rw [ih.1]; exact hlen)]
    · rw [List.getElem?_set_ne (by omega)]
      exact ih.2 it (by omega) hlen

theorem bear_capture_env_t_spec (apple : Bool) (getenv : CStr → Option CStr)
    (alloc : Nat → Bool) (env : bear_env_t) (hlen : env.length = ENV_SIZE apple) :
    (bear_capture_env_t apple getenv alloc env).1.length = ENV_SIZE apple ∧
    (∀ (it : Nat) (name : CStr), (env_names apple)[it]? = some name →
      (bear_capture_env_t apple getenv alloc env).1[it]? =
        some (captured alloc it (getenv name))) ∧
    ((bear_capture_env_t apple getenv alloc env).2 = 1 ↔
      ∀ (it : Nat) (name : CStr), (env_names apple)[it]? = some name →
        ∃ v, getenv name = some v ∧ alloc it = true) ∧
    ((bear_capture_env_t apple getenv alloc env).2 = 0 ∨
      (bear_capture_env_t apple getenv alloc env).2 = 1) := by
  obtain ⟨h1, _, h3, h4, h5⟩ := bear_capture_env_t_loop_spec getenv alloc (env_names apple)
    0 env 1 (Or.inr rfl) (by rw [env_names_length, hlen]; omega)
  simp only [Nat.zero_add] at h3 h4
  refine ⟨by rw [← hlen]; exact h1, h3, ?_, h5⟩
  rw [bear_capture_env_t, h4]; simp

theorem globalsOK_init (apple : Bool) : GlobalsOK apple (Globals.init apple) := by
  cases apple <;> exact ⟨rfl, fun h => absurd rfl h⟩

theorem globalsOK_on_load (apple : Bool) (getenv : CStr → Option CStr)
    (alloc : Nat → Bool) (g : Globals) (hg : GlobalsOK apple g) :
    GlobalsOK apple (on_load apple getenv alloc g) := by
  unfold on_load
  split
  · obtain ⟨h1, h2, h3, h4⟩ := bear_capture_env_t_spec apple getenv alloc g.initial_env hg.1
    refine ⟨h1, fun hne it hit => ?_⟩
    have hone : (bear_capture_env_t apple getenv alloc g.initial_env).2 = 1 := by
      rcases h4 with h | h
      · exact absurd h hne
      · exact h
    have hlt : it < (env_names apple).length := by rw [env_names_length]; exact hit
    obtain ⟨v, hv, ha⟩ := h3.1 hone it _ (List.getElem?_eq_getElem hlt)
    exact ⟨v, by rw [h2 it _ (List.getElem?_eq_getElem hlt), hv, captured_of_alloc _ _ _ ha]⟩
  · exact hg

theorem globalsOK_on_unload (apple : Bool) (g : Globals) (hg : GlobalsOK apple g) :
    GlobalsOK apple (on_unload apple g) :=
  ⟨by
    show (bear_release_env_t apple g.initial_env).length = ENV_SIZE apple
    rw [bear_release_env_t, (range_foldl_set_none _ _).1]; exact hg.1,
   fun h => absurd rfl h⟩

theorem globalsOK_foldl (apple : Bool) (hooks : List Hook) (g : Globals)
    (hg : GlobalsOK apple g) : GlobalsOK apple (hooks.foldl (Hook.run apple) g) := by
  induction hooks generalizing g with
  | nil => exact hg
  | cons hook hooks ih =>
    apply ih
    cases hook with
    | load getenv alloc => exact globalsOK_on_load apple getenv alloc g hg
    | unload => exact globalsOK_on_unload apple g hg

theorem globalsOK_reached (apple : Bool) (hooks : List Hook) :
    GlobalsOK apple (reached apple hooks) :=
  globalsOK_foldl apple hooks _ (globalsOK_init apple)

/-- C10, as stated, fails: on Linux, with both tracked variables set in the process
environment and the `strdup` of the second value returning null, `bear_capture_env_t`
returns 0 and leaves the second slot null: the status follows the copies, not the
variables. -/
theorem bear_capture_env_t_copy_failure :
    (∀ name ∈ env_names false, ((fun _ => some (cstr "x")) name : Option CStr).isSome = true) ∧
    (bear_capture_env_t false (fun _ => some (cstr "x")) (fun it => it != 1)
      [none, none]).2 = 0 ∧
    (bear_capture_env_t false (fun _ => some (cstr "x")) (fun it => it != 1)
      [none, none]).1 = [some (cstr "x"), none] := by
  decide

/-- C10, amended: `bear_capture_env_t` returns 1 exactly when every tracked variable is
set and the copy of its value succeeds, and 0 otherwise; it leaves in each slot a copy of
the variable's value when the variable is set and the copy succeeds, and null when the
variable is unset or the copy fails (when every copy succeeds: 1 exactly when every
tracked variable is set, each slot holding the value or null). So in every state reached
from the loaded image by `on_load` and `on_unload` steps, `initialized` is non-zero only
if every slot of `initial_env`, the output directory in slot 0 included, holds a value;
and after `on_unload` every slot is null and `initialized` is 0. -/
theorem captured_environment_invariant (apple : Bool) (getenv : CStr → Option CStr)
    (alloc : Nat → Bool) (hooks : List Hook) :
    (∀ env : bear_env_t, env.length = ENV_SIZE apple →
      ((bear_capture_env_t apple getenv alloc env).2 = 1 ↔
        ∀ (it : Nat) (name : CStr), (env_names apple)[it]? = some name →
          ∃ v, getenv name = some v ∧ alloc it = true) ∧
      ((bear_capture_env_t apple getenv alloc env).2 = 0 ∨
        (bear_capture_env_t apple getenv alloc env).2 = 1) ∧
      (∀ (it : Nat) (name : CStr), (env_names apple)[it]? = some name →
        (bear_capture_env_t apple getenv alloc env).1[it]? =
          some (captured alloc it (getenv name))) ∧
      ((∀ it, alloc it = true) →
        ((bear_capture_env_t apple getenv alloc env).2 = 1 ↔
          ∀ name ∈ env_names apple, ∃ v, getenv name = some v) ∧
        ∀ (it : Nat) (name : CStr), (env_names apple)[it]? = some name →
          (bear_capture_env_t apple getenv alloc env).1[it]? = some (getenv name))) ∧
    ((reached apple hooks).initial_env.length = ENV_SIZE apple) ∧
    ((reached apple hooks).initialized ≠ 0 →
      (∀ it, it < ENV_SIZE apple →
        ∃ v, (reached apple hooks).initial_env[it]? = some (some v)) ∧
      ∃ out_dir, (reached apple hooks).initial_env.getD 0 none = some out_dir) ∧
    ((on_unload apple (reached apple hooks)).initialized = 0 ∧
      ∀ it, it < ENV_SIZE apple →
        (on_unload apple (reached apple hooks)).initial_env[it]? = some none) := by
  have hok := globalsOK_reached apple hooks
  refine ⟨?_, hok.1, ?_, rfl, ?_⟩
  · intro env hlen
    obtain ⟨_, h2, h3, h4⟩ := bear_capture_env_t_spec apple getenv alloc env hlen
    refine ⟨h3, h4, h2, fun hall => ⟨?_, ?_⟩⟩
    · rw [h3]
      constructor
      · intro h name hmem
        obtain ⟨it, hit⟩ := List.mem_iff_getElem?.1 hmem
        obtain ⟨v, hv, _⟩ := h it name hit
        exact ⟨v, hv⟩
      · intro h it name hit
        obtain ⟨v, hv⟩ := h name (List.getElem?_mem hit)
        exact ⟨v, hv, hall it⟩
    · intro it name hit
      rw [h2 it name hit, captured_of_alloc _ _ _ (hall it)]
  · intro hne
    refine ⟨hok.2 hne, ?_⟩
    obtain ⟨v, hv⟩ := hok.2 hne 0 (by cases apple <;> decide)
    refine ⟨v, ?_⟩
    rw [List.getD_eq_getElem?_getD, hv]; rfl
  · intro it hit
    exact (range_foldl_set_none _ _).2 it hit (by rw [hok.1]; exact hit)

/-! ## Delegation when the output directory is unset -/

theorem on_load_output_unset (apple : Bool) (getenv : CStr → Option CStr)
    (alloc : Nat → Bool) (g : Globals)
    (hg : GlobalsOK apple g) (h0 : g.initialized = 0) (hunset : getenv ENV_OUTPUT = none) :
    (on_load apple getenv alloc g).initialized = 0 ∧
      ∃ rest, (on_load apple getenv alloc g).initial_env = none :: rest := by
  obtain ⟨h1, h2, h3, h4⟩ := bear_capture_env_t_spec apple getenv alloc g.initial_env hg.1
  have hname : (env_names apple)[0]? = some ENV_OUTPUT := by cases apple <;> rfl
  have hslot := h2 0 ENV_OUTPUT hname
  rw [hunset] at hslot
  have hstatus : (bear_capture_env_t apple getenv alloc g.initial_env).2 = 0 := by
    rcases h4 with h | h
    · exact h
    · obtain ⟨v, hv, _⟩ := h3.1 h 0 ENV_OUTPUT hname
      rw [hunset] at hv; cases hv
  simp only [on_load, h0, if_true]
  refine ⟨hstatus, ?_⟩
  cases hl : (bear_capture_env_t apple getenv alloc g.initial_env).1 with
  | nil => rw [hl] at hslot; simp at hslot
  | cons c rest =>
    rw [hl] at hslot
    simp only [List.getElem?_cons_zero, Option.some.injEq, captured] at hslot
    exact ⟨rest, by rw [hslot]⟩

theorem bear_update_environment_null_first (apple : Bool) (envp : Option StrArr)
    (rest : bear_env_t) :
    bear_update_environment apple envp (none :: rest) = bear_strings_copy envp := by
  cases apple <;> rfl

/-- C9: when the output-directory variable is unset as `on_load` captures the
environment, an intercepted `execve` (and `execv`, on the process environment) leaves
the file system as it was, so no report file is written; it calls the real `execve` with
the caller's path and argv and with an array holding exactly the entries of the caller's
envp in order, then the null; and it returns what the real `execve` returns. -/
theorem execve_invisible_when_output_unset (apple : Bool) (hooks : List Hook)
    (getenv : CStr → Option CStr) (alloc : Nat → Bool) (dlsym : CStr → Option RealExecve)
    (fp : RealExecve) (h : Host) (fs : FileSystem) (path : CStr) (argv envp : Option StrArr)
    (h0 : (reached apple hooks).initialized = 0)
    (hunset : getenv ENV_OUTPUT = none)
    (hsym : dlsym (cstr "execve") = some fp) :
    bear_report_call (on_load apple getenv alloc (reached apple hooks)) h fs argv = .ok fs ∧
    execve apple dlsym (on_load apple getenv alloc (reached apple hooks)) h fs path argv envp =
      .ok (fp path argv (some (bear_strings_copy envp)), fs) ∧
    execv apple dlsym (on_load apple getenv alloc (reached apple hooks)) h fs envp path argv =
      .ok (fp path argv (some (bear_strings_copy envp)), fs) ∧
    bear_strings_copy envp = (entries (envp.getD [])).map some ++ [none] ∧
    entries (bear_strings_copy envp) = entries (envp.getD []) := by
  obtain ⟨hinit, rest, hrest⟩ := on_load_output_unset apple getenv alloc _
    (globalsOK_reached apple hooks) h0 hunset
  have hreport : bear_report_call (on_load apple getenv alloc (reached apple hooks)) h fs argv =
      .ok fs := by
    simp [bear_report_call, hinit]
  have hcall : call_execve apple dlsym (on_load apple getenv alloc (reached apple hooks)) path
      argv envp = .ok (fp path argv (some (bear_strings_copy envp))) := by
    simp only [call_execve, hsym, hrest, bear_update_environment_null_first]
  refine ⟨hreport, ?_, ?_, bear_strings_copy_eq envp, ?_⟩
  · simp only [execve, hreport, hcall]
  · simp only [execv, hreport, hcall]
  · rw [bear_strings_copy_eq, entries_cells]

/-- Witness for `execve_invisible_when_output_unset`: a freshly loaded Linux image, a
process environment holding only `LD_PRELOAD`, and a real `execve` that returns the number
of entries of the environment it is given: the caller's two entries arrive, nothing is
added. -/
theorem execve_invisible_when_output_unset_witness :
    execve false (fun _ => some (fun _ _ envp => (bear_strings_length envp : Int)))
        (on_load false
          (fun name => if name = cstr "LD_PRELOAD" then some (cstr "lib.so") else none)
          (fun _ => true) (reached false []))
        sampleHost (sampleFiles 0)
        (cstr "/bin/true") (some [some (cstr "/bin/true"), none])
        (some [some (cstr "A=1"), some (cstr "B=2"), none]) =
      .ok (2, sampleFiles 0) :=
  (execve_invisible_when_output_unset false []
    (fun name => if name = cstr "LD_PRELOAD" then some (cstr "lib.so") else none)
    (fun _ => true)
    (fun _ => some (fun _ _ envp => (bear_strings_length envp : Int)))
    (fun _ _ envp => (bear_strings_length envp : Int))
    sampleHost (sampleFiles 0)
    (cstr "/bin/true") (some [some (cstr "/bin/true"), none])
    (some [some (cstr "A=1"), some (cstr "B=2"), none]) rfl (by decide) rfl).2.1

/-! ## The report file: name and content -/

theorem utoaAux_length_le (fuel n : Nat) (acc : List Nat) (k : Nat) (hk : 1 ≤ k)
    (hn : n < 10 ^ k) : (utoaAux fuel n acc).length ≤ acc.length + k := by
  induction fuel generalizing n acc k with
  | zero => simp [utoaAux]
  | succ fuel ih =>
    simp only [utoaAux]
    split
    · simp only [List.length_cons]; omega
    · rename_i hdiv
      have hk2 : 2 ≤ k := by
        rcases Nat.lt_or_ge k 2 with h | h
        · have hk1 : k = 1 := by omega
          subst hk1
          exact absurd (Nat.div_eq_of_lt (by simpa using hn)) hdiv
        · exact h
      have hn' : n / 10 < 10 ^ (k - 1) := by
        apply Nat.div_lt_of_lt_mul
        have : 10 ^ k = 10 * 10 ^ (k - 1) := by
          rw [← Nat.pow_succ']; congr 1; omega
        omega
      have := ih (n / 10) ((48 + n % 10) :: acc) (k - 1) (by omega) hn'
      simp only [List.length_cons] at this
      omega

theorem utoa_length_le (n k : Nat) (hk : 1 ≤ k) (hn : n < 10 ^ k) :
    (utoa n).length ≤ k := by
  have := utoaAux_length_le (n + 1) n [] k hk hn
  simpa [utoa] using this

theorem fmt_d_length_int32 (pid : Int) (hlo : -2147483648 ≤ pid) (hhi : pid < 2147483648) :
    (fmt_d pid).length ≤ 11 := by
  have hn : pid.natAbs < 10 ^ 10 := by omega
  have := utoa_length_le pid.natAbs 10 (by omega) hn
  unfold fmt_d
  split
  · simp only [List.length_cons]; omega
  · omega

theorem fmt_d_length_idx (idx : Nat) (h : idx < 100) : (fmt_d (idx : Int)).length ≤ 2 := by
  have hn : idx < 10 ^ 2 := by omega
  have := utoa_length_le idx 2 (by omega) hn
  unfold fmt_d
  split
  · omega
  · simpa using this

theorem snprintf_report_path (out_dir : CStr) (pid : Int) (idx : Nat)
    (hlo : -2147483648 ≤ pid) (hhi : pid < 2147483648) (hidx : idx < 100) :
    snprintf (strlen out_dir + 32) (report_path out_dir pid idx) =
      report_path out_dir pid idx := by
  have h1 := fmt_d_length_int32 pid hlo hhi
  have h2 := fmt_d_length_idx idx hidx
  have h3 : (cstr ".json").length = 5 := by decide
  unfold snprintf
  apply List.take_of_length_le
  simp only [report_path, strlen, List.length_append, List.length_cons, h3]
  omega

theorem bear_report_call_filename_first_free (fs : FileSystem) (out_dir : CStr) (pid : Int)
    (hlo : -2147483648 ≤ pid) (hhi : pid < 2147483648) (left idx k : Nat) (buf : CStr)
    (hk1 : idx ≤ k) (hk2 : k < idx + left) (h100 : idx + left ≤ 100)
    (hfree : access_W_OK fs (report_path out_dir pid k) = -1)
    (hused : ∀ j, idx ≤ j → j < k → access_W_OK fs (report_path out_dir pid j) = 0) :
    bear_report_call_filename fs out_dir pid (strlen out_dir + 32) left idx buf =
      report_path out_dir pid k := by
  induction left generalizing idx buf with
  | zero => omega
  | succ left ih =>
    simp only [bear_report_call_filename,
      snprintf_report_path out_dir pid idx hlo hhi (by omega)]
    rcases Nat.eq_or_lt_of_le hk1 with heq | hlt
    · subst heq
      simp [hfree]
    · have h0 := hused idx (Nat.le_refl _) hlt
      simp only [h0]
      rw [if_neg (by decide)]
      exact ih (idx + 1) _ (by omega) (by omega) (by omega)
        (fun j hj1 hj2 => hused j (by omega) hj2)

theorem bear_write_json_string_append (word : CStr) (fd : FILE) :
    bear_write_json_string word fd = fd ++ jsonString word := by
  rw [jsonString, bear_write_json_string_eq word fd, bear_write_json_string_eq word []]
  simp

theorem bear_report_call_argv_rest (arr : StrArr) (fd : FILE) (w : CStr) :
    bear_report_call_argv arr false (fd ++ jsonString w) =
      fd ++ commaSeparated ((w :: entries arr).map jsonString) := by
  induction arr generalizing fd w with
  | nil => simp [bear_report_call_argv, entries, commaSeparated]
  | cons c arr ih =>
    cases c with
    | none => simp [bear_report_call_argv, entries, commaSeparated]
    | some x =>
      simp only [bear_report_call_argv, Bool.false_eq_true, if_false, fputc,
        bear_write_json_string_append x]
      rw [ih (fd ++ jsonString w ++ [44]) x]
      simp [entries, commaSeparated]

theorem bear_report_call_argv_first (arr : StrArr) (fd : FILE) :
    bear_report_call_argv arr true fd =
      fd ++ commaSeparated ((entries arr).map jsonString) := by
  cases arr with
  | nil => simp [bear_report_call_argv, entries, commaSeparated]
  | cons c arr =>
    cases c with
    | none => simp [bear_report_call_argv, entries, commaSeparated]
    | some x =>
      simp only [bear_report_call_argv, if_true, bear_write_json_string_append x]
      rw [bear_report_call_argv_rest arr fd x]
      simp [entries]

theorem bear_report_call_text_eq (pid : Int) (argv : Option StrArr) (cwd : CStr) :
    bear_report_call_text pid argv cwd =
      cstr "\x7b \"pid\": " ++ fmt_d pid ++ cstr ", \"cmd\": [" ++
        commaSeparated ((entries (argv.getD [])).map jsonString) ++
        cstr "], \"cwd\": " ++ jsonString cwd ++ [125] := by
  simp only [bear_report_call_text, fputs, fputc, bear_report_call_argv_first,
    bear_write_json_string_append, List.nil_append, List.append_assoc]

theorem bear_report_call_ok (g : Globals) (h : Host) (fs : FileSystem)
    (argv : Option StrArr) (out_dir cwd : CStr) (hinit : g.initialized ≠ 0)
    (hout : g.initial_env.getD 0 none = some out_dir) (hcwd : h.cwd = some cwd)
    (hopen : fs.writable (report_filename g h fs) = true) (hclose : h.fclose_ok = true) :
    bear_report_call g h fs argv =
      .ok ((fs.store (report_filename g h fs) []).store (report_filename g h fs)
        (bear_report_call_text h.pid argv cwd)) := by
  simp only [report_filename, hout] at hopen ⊢
  simp only [bear_report_call, hinit, if_false, hcwd, hout, fopen_w, hopen, if_true, hclose]

theorem bear_write_json_char_spec (c : Nat) :
    bear_write_json_char c [] = spec_escape_byte c := by
  by_cases h8 : c = 8
  · subst h8; decide
  by_cases h12 : c = 12
  · subst h12; decide
  by_cases h10 : c = 10
  · subst h10; decide
  by_cases h13 : c = 13
  · subst h13; decide
  by_cases h9 : c = 9
  · subst h9; decide
  by_cases h34 : c = 34
  · subst h34; decide
  by_cases h92 : c = 92
  · subst h92; decide
  simp [bear_write_json_char, spec_escape_byte, fputc, h8, h12, h10, h13, h9, h34, h92]

theorem bear_write_json_loop_spec (word : CStr) :
    bear_write_json_loop word [] = spec_escape word := by
  induction word with
  | nil => rfl
  | cons c word ih =>
    rw [bear_write_json_loop_cons, bear_write_json_char_spec, ih]
    rfl

theorem jsonString_eq_spec (word : CStr) : jsonString word = spec_json_string word := by
  rw [jsonString, bear_write_json_string_eq, bear_write_json_loop_spec]
  rfl

theorem json_decode_spec_json_string (s : CStr)
    (h : ∀ b ∈ s, 32 ≤ b ∨ b = 8 ∨ b = 9 ∨ b = 10 ∨ b = 12 ∨ b = 13) :
    json_decode (spec_json_string s) = some s := by
  rw [spec_json_string, ← bear_write_json_loop_spec]
  simp only [json_decode, if_true]
  exact json_decode_body_loop s h

theorem json_decode_map_spec (ws : List CStr)
    (h : ∀ w ∈ ws, ∀ b ∈ w, 32 ≤ b ∨ b = 8 ∨ b = 9 ∨ b = 10 ∨ b = 12 ∨ b = 13) :
    (ws.map spec_json_string).map json_decode = ws.map some := by
  induction ws with
  | nil => rfl
  | cons w ws ih =>
    simp only [List.map_cons]
    rw [json_decode_spec_json_string w (h w (List.mem_cons_self _ _)),
      ih (fun x hx => h x (List.mem_cons_of_mem _ hx))]

/-! ## Environment propagation: the claims -/

/-- C1, as stated, fails: on Linux, with the output directory absent from the capture and
the preload variable captured as `lib.so`, the array returned for an empty parent
environment is empty, so it holds no entry `LD_PRELOAD=lib.so`. The loop of
`bear_update_environment` ends at the first null slot. -/
theorem bear_update_environment_stops_at_null_slot :
    (env_names false)[1]? = some (cstr "LD_PRELOAD") ∧
    ([none, some (cstr "lib.so")] : bear_env_t)[1]? = some (some (cstr "lib.so")) ∧
    entries (bear_update_environment false (some [none]) [none, some (cstr "lib.so")]) = [] ∧
    assignment (cstr "LD_PRELOAD") (cstr "lib.so") ∉
      entries (bear_update_environment false (some [none]) [none, some (cstr "lib.so")]) := by
  decide

/-- C1, amended: for a tracked variable whose captured value is present and is preceded
in the capture only by present values, the array returned by `bear_update_environment`
contains the entry `name=value`: it stands at the position of the first parent entry
starting with `name=`, or after all parent positions when no parent entry starts with
`name=`. -/
theorem bear_update_environment_contains (apple : Bool) (envp : Option StrArr)
    (env : bear_env_t) (it : Nat) (name value : CStr)
    (hname : (env_names apple)[it]? = some name)
    (hvalue : env[it]? = some (some value))
    (hbefore : ∀ j, j < it → ∃ w, env[j]? = some (some w)) :
    assignment name value ∈ entries (bear_update_environment apple envp env) ∧
    (∀ (i : Nat) (e : CStr), (entries (envp.getD []))[i]? = some e → startsWithKey name e = true →
      (∀ (j : Nat), j < i → ∀ x, (entries (envp.getD []))[j]? = some x →
        startsWithKey name x = false) →
      (entries (bear_update_environment apple envp env))[i]? =
        some (assignment name value)) ∧
    ((∀ e ∈ entries (envp.getD []), startsWithKey name e = false) →
      ∃ i, (entries (envp.getD [])).length ≤ i ∧
        (entries (bear_update_environment apple envp env))[i]? =
          some (assignment name value)) := by
  have hmem := applied_mem_of_index (env_names apple) env it name value hname hvalue hbefore
  have hr : ruleOf (name, value) ∈ (applied (env_names apple) env).map ruleOf :=
    List.mem_map.2 ⟨_, hmem, rfl⟩
  have hfst : (ruleOf (name, value)).1 = startsWithKey name :=
    rule_fst_of_applied apple env _ hmem
  have hA : ∀ (i : Nat) (e : CStr), (entries (envp.getD []))[i]? = some e → startsWithKey name e = true →
      (∀ (j : Nat), j < i → ∀ x, (entries (envp.getD []))[j]? = some x →
        startsWithKey name x = false) →
      (entries (bear_update_environment apple envp env))[i]? =
        some (assignment name value) := by
    intro i e hi hm hfirst
    rw [entries_bear_update_environment]
    exact updAllP_get_first _ (rules_pairwise apple env) _ _ hr i e hi
      (by rw [hfst]; exact hm) (by rw [hfst]; exact hfirst)
  have hB : (∀ e ∈ entries (envp.getD []), startsWithKey name e = false) →
      ∃ i, (entries (envp.getD [])).length ≤ i ∧
        (entries (bear_update_environment apple envp env))[i]? =
          some (assignment name value) := by
    intro hno
    rw [entries_bear_update_environment]
    exact updAllP_get_appended _ (rules_pairwise apple env) _ _ hr
      (by rw [hfst]; exact any_eq_false_of_forall _ _ hno)
  refine ⟨?_, hA, hB⟩
  cases hany : (entries (envp.getD [])).any (startsWithKey name) with
  | false =>
    obtain ⟨i, _, hget⟩ := hB (forall_of_any_eq_false _ _ hany)
    exact List.getElem?_mem hget
  | true =>
    have hlt : List.findIdx (startsWithKey name) (entries (envp.getD [])) <
        (entries (envp.getD [])).length := List.findIdx_lt_length.2 (by
      obtain ⟨e, he, hm⟩ := List.any_eq_true.1 hany
      exact ⟨e, he, hm⟩)
    have hget := hA _ _ (List.getElem?_eq_getElem hlt) (List.findIdx_getElem)
      (fun j hj x hx => by
        have hjl : j < (entries (envp.getD [])).length := Nat.lt_trans hj hlt
        rw [List.getElem?_eq_getElem hjl] at hx
        have := List.not_of_lt_findIdx hj
        rw [← Option.some.inj hx]
        simpa using this)
    exact List.getElem?_mem hget

/-- Witness for `bear_update_environment_contains`: on Linux both variables are captured
and the parent holds `A=1` and `LD_PRELOAD=x`. -/
theorem bear_update_environment_contains_witness :
    assignment (cstr "LD_PRELOAD") (cstr "lib.so") ∈
      entries (bear_update_environment false
        (some [some (cstr "A=1"), some (cstr "LD_PRELOAD=x"), none])
        [some (cstr "/out"), some (cstr "lib.so")]) :=
  (bear_update_environment_contains false
    (some [some (cstr "A=1"), some (cstr "LD_PRELOAD=x"), none])
    [some (cstr "/out"), some (cstr "lib.so")] 1 (cstr "LD_PRELOAD") (cstr "lib.so")
    (by decide) (by decide)
    (fun j hj => ⟨cstr "/out", by
      have : j = 0 := by omega
      subst this; rfl⟩)).1

/-- C2: `bear_update_environment` keeps every parent entry in place. A parent entry that
starts with no tracked `name=` stands unchanged at its position; any parent position holds
either the parent's entry or, when that entry is the first to start with `name=` for a
tracked variable the loop reaches, that variable's `name=value`; every entry past the
parent positions is the `name=value` of a reached variable that no parent entry starts
with; and the result's length is the parent's length plus the number of reached variables
matched by no parent entry. -/
theorem bear_update_environment_preserves (apple : Bool) (envp : Option StrArr)
    (env : bear_env_t) :
    (∀ (i : Nat) (e : CStr), (entries (envp.getD []))[i]? = some e →
      (∀ name ∈ env_names apple, startsWithKey name e = false) →
      (entries (bear_update_environment apple envp env))[i]? = some e) ∧
    (∀ (i : Nat) (e : CStr), (entries (envp.getD []))[i]? = some e →
      (entries (bear_update_environment apple envp env))[i]? = some e ∨
      ∃ kv ∈ applied (env_names apple) env, startsWithKey kv.1 e = true ∧
        (∀ (j : Nat), j < i → ∀ x, (entries (envp.getD []))[j]? = some x →
          startsWithKey kv.1 x = false) ∧
        (entries (bear_update_environment apple envp env))[i]? =
          some (assignment kv.1 kv.2)) ∧
    (∀ (i : Nat) (e : CStr), (entries (envp.getD [])).length ≤ i →
      (entries (bear_update_environment apple envp env))[i]? = some e →
      ∃ kv ∈ applied (env_names apple) env, e = assignment kv.1 kv.2 ∧
        ∀ x ∈ entries (envp.getD []), startsWithKey kv.1 x = false) ∧
    (entries (bear_update_environment apple envp env)).length =
      (entries (envp.getD [])).length +
        ((applied (env_names apple) env).filter
          (fun kv => !(entries (envp.getD [])).any (startsWithKey kv.1))).length := by
  rw [entries_bear_update_environment]
  refine ⟨?_, ?_, ?_, ?_⟩
  · intro i e hi hno
    apply updAllP_get_keep _ _ i e hi
    intro r hr
    obtain ⟨kv, hkv, rfl⟩ := List.mem_map.1 hr
    rw [rule_fst_of_applied apple env kv hkv]
    exact hno kv.1 (applied_mem_names _ _ kv hkv)
  · intro i e hi
    rcases updAllP_get_cases_first _ (rules_pairwise apple env) _ i e hi with
      h | ⟨r, hr, hm, hfirst, h⟩
    · exact Or.inl h
    · obtain ⟨kv, hkv, rfl⟩ := List.mem_map.1 hr
      rw [rule_fst_of_applied apple env kv hkv] at hm hfirst
      exact Or.inr ⟨kv, hkv, hm, hfirst, h⟩
  · intro i e hi h
    obtain ⟨r, hr, he, hno⟩ := updAllP_get_new _ (rules_pairwise apple env) _ i e hi h
    obtain ⟨kv, hkv, rfl⟩ := List.mem_map.1 hr
    rw [rule_fst_of_applied apple env kv hkv] at hno
    exact ⟨kv, hkv, he, forall_of_any_eq_false _ _ hno⟩
  · rw [updAllP_length _ (rules_pairwise apple env), List.filter_map, List.length_map]
    congr 2
    apply List.filter_congr
    intro kv hkv
    simp only [Function.comp_apply, rule_fst_of_applied apple env kv hkv]

/-- C3, as stated, fails: a parent environment already holding two entries that start
with `LD_PRELOAD=` yields a result that still holds two such entries; only the first is
overwritten. -/
theorem bear_update_environment_keeps_parent_duplicates :
    cstr "LD_PRELOAD" ∈ env_names false ∧
    entries (bear_update_environment false
      (some [some (cstr "LD_PRELOAD=a"), some (cstr "LD_PRELOAD=b"), none])
      [some (cstr "/out"), some (cstr "lib.so")]) =
      [cstr "LD_PRELOAD=lib.so", cstr "LD_PRELOAD=b", cstr "INTERCEPT_BUILD_TARGET_DIR=/out"] ∧
    (entries (bear_update_environment false
      (some [some (cstr "LD_PRELOAD=a"), some (cstr "LD_PRELOAD=b"), none])
      [some (cstr "/out"), some (cstr "lib.so")])).countP
        (startsWithKey (cstr "LD_PRELOAD")) = 2 := by
  decide

/-- C3, amended: `bear_update_environment` creates no duplicate of a tracked key. For
each tracked name the result holds at most as many entries starting with `name=` as the
parent does, or one when the parent holds none; so a parent with at most one such entry
yields a result with at most one. -/
theorem bear_update_environment_no_new_duplicates (apple : Bool) (envp : Option StrArr)
    (env : bear_env_t) (name : CStr) (hname : name ∈ env_names apple) :
    (entries (bear_update_environment apple envp env)).countP (startsWithKey name) ≤
      max 1 ((entries (envp.getD [])).countP (startsWithKey name)) ∧
    ((entries (envp.getD [])).countP (startsWithKey name) ≤ 1 →
      (entries (bear_update_environment apple envp env)).countP (startsWithKey name) ≤ 1) := by
  have hmain : (entries (bear_update_environment apple envp env)).countP
      (startsWithKey name) ≤ max 1 ((entries (envp.getD [])).countP (startsWithKey name)) := by
    rw [entries_bear_update_environment]
    apply updAllP_countP
    intro r hr
    obtain ⟨kv, hkv, rfl⟩ := List.mem_map.1 hr
    have hmem := applied_mem_names _ _ kv hkv
    rw [rule_fst_of_applied apple env kv hkv]
    rcases env_names_eq_or_sep apple kv.1 hmem name hname with heq | hsep
    · left
      exact ⟨by rw [heq], by rw [← heq]; exact startsWithKey_assignment kv.1 kv.2⟩
    · right
      exact ⟨startsWithKey_disjoint kv.1 name hsep _ (startsWithKey_assignment kv.1 kv.2),
        fun e he => startsWithKey_disjoint kv.1 name hsep e he⟩
  refine ⟨hmain, fun h => le_trans hmain ?_⟩
  exact max_le (Nat.le_refl 1) h

/-- Witness for `bear_update_environment_no_new_duplicates`: a Linux parent holding one
`LD_PRELOAD=` entry. -/
theorem bear_update_environment_no_new_duplicates_witness :
    cstr "LD_PRELOAD" ∈ env_names false ∧
    (entries (bear_update_environment false
      (some [some (cstr "A=1"), some (cstr "LD_PRELOAD=x"), none])
      [some (cstr "/out"), some (cstr "lib.so")])).countP
        (startsWithKey (cstr "LD_PRELOAD")) ≤ 1 :=
  ⟨by decide,
    (bear_update_environment_no_new_duplicates false
      (some [some (cstr "A=1"), some (cstr "LD_PRELOAD=x"), none])
      [some (cstr "/out"), some (cstr "lib.so")] (cstr "LD_PRELOAD") (by decide)).2
      (by decide)⟩

/-- C4: `bear_update_environment` is idempotent: applied to its own result with the same
capture it returns the same array, cell by cell. -/
theorem bear_update_environment_idempotent (apple : Bool) (p : Option StrArr)
    (c : bear_env_t) :
    bear_update_environment apple (some (bear_update_environment apple p c)) c =
      bear_update_environment apple p c := by
  rw [bear_update_environment_eq apple (some _) c, Option.getD_some,
    entries_bear_update_environment, bear_update_environment_eq apple p c,
    updAllP_idem _ (rules_pairwise apple c) (rules_good apple c)]

/-! ## The report file: the claims -/

set_option maxRecDepth 100000 in
/-- C6, as stated, fails: when the reports `/out/42_0.json` to `/out/42_99.json` all
exist and `/out/42_100.json` does not, the smallest index with no file is 100, yet
`bear_report_call` opens `/out/42_99.json`, whose old content is replaced, and creates no
`/out/42_100.json`. The loop tries the indexes below 100 only. -/
theorem bear_report_call_reuses_last_index :
    (∀ j, j < 100 → (sampleFiles 100).content (report_path (cstr "/out") 42 (j : Nat)) =
      some [7]) ∧
    (sampleFiles 100).content (report_path (cstr "/out") 42 100) = none ∧
    report_filename sampleGlobals sampleHost (sampleFiles 100) = cstr "/out/42_99.json" ∧
    contentAfter (bear_report_call sampleGlobals sampleHost (sampleFiles 100)
      (some [some (cstr "/bin/true"), none])) (cstr "/out/42_99.json") =
      some (cstr "\x7b \"pid\": 42, \"cmd\": [\"/bin/true\"], \"cwd\": \"/tmp/work\"\x7d") ∧
    contentAfter (bear_report_call sampleGlobals sampleHost (sampleFiles 100)
      (some [some (cstr "/bin/true"), none])) (cstr "/out/42_100.json") = none := by
  decide

/-- C6, amended: when reporting is enabled, the pid is a 32-bit `int`, the reports with
the indexes below `k` exist and are writable, none exists with index `k`, and `k` is below
100, `bear_report_call` opens `<outputDir>/<pid>_<k>.json`, the path of the smallest index
with no file; on success that file holds the report, every other file is as before, and
so no existing report is overwritten. -/
theorem bear_report_call_first_free_index (g : Globals) (h : Host) (fs : FileSystem)
    (argv : Option StrArr) (out_dir cwd : CStr) (k : Nat)
    (hinit : g.initialized ≠ 0) (hout : g.initial_env.getD 0 none = some out_dir)
    (hcwd : h.cwd = some cwd) (hlo : -2147483648 ≤ h.pid) (hhi : h.pid < 2147483648)
    (hk : k < 100)
    (hused : ∀ j, j < k → (fs.content (report_path out_dir h.pid (j : Nat))).isSome = true ∧
      fs.writable (report_path out_dir h.pid (j : Nat)) = true)
    (hfree : fs.content (report_path out_dir h.pid (k : Nat)) = none)
    (hopen : fs.writable (report_path out_dir h.pid (k : Nat)) = true)
    (hclose : h.fclose_ok = true) :
    report_filename g h fs = report_path out_dir h.pid (k : Nat) ∧
    contentAfter (bear_report_call g h fs argv) (report_path out_dir h.pid (k : Nat)) =
      some (bear_report_call_text h.pid argv cwd) ∧
    (∀ p, p ≠ report_path out_dir h.pid (k : Nat) →
      contentAfter (bear_report_call g h fs argv) p = fs.content p) ∧
    (∀ j, j < k →
      contentAfter (bear_report_call g h fs argv) (report_path out_dir h.pid (j : Nat)) =
        fs.content (report_path out_dir h.pid (j : Nat))) := by
  have hname : report_filename g h fs = report_path out_dir h.pid (k : Nat) := by
    simp only [report_filename, hout]
    apply bear_report_call_filename_first_free fs out_dir h.pid hlo hhi 100 0 k [] (by omega)
      (by omega) (by omega)
    · simp [access_W_OK, hfree]
    · intro j _ hj
      simp [access_W_OK, (hused j hj).1, (hused j hj).2]
  have hcall := bear_report_call_ok g h fs argv out_dir cwd hinit hout hcwd
    (by rw [hname]; exact hopen) hclose
  rw [hname] at hcall
  have hother : ∀ p, p ≠ report_path out_dir h.pid (k : Nat) →
      contentAfter (bear_report_call g h fs argv) p = fs.content p := by
    intro p hp
    simp [hcall, contentAfter, FileSystem.store, hp]
  refine ⟨hname, ?_, hother, ?_⟩
  · simp [hcall, contentAfter, FileSystem.store]
  · intro j hj
    apply hother
    intro heq
    have := (hused j hj).1
    rw [heq, hfree] at this
    cases this

set_option maxRecDepth 100000 in
/-- Witness for `bear_report_call_first_free_index`: with `/out/42_0.json` to
`/out/42_5.json` present, the report of process 42 goes to `/out/42_6.json`. -/
theorem bear_report_call_first_free_index_witness :
    report_filename sampleGlobals sampleHost (sampleFiles 6) =
      report_path (cstr "/out") 42 (6 : Nat) ∧
    report_path (cstr "/out") 42 (6 : Nat) = cstr "/out/42_6.json" :=
  ⟨(bear_report_call_first_free_index sampleGlobals sampleHost (sampleFiles 6)
      (some [some (cstr "/bin/true"), none]) (cstr "/out") (cstr "/tmp/work") 6
      (by decide) (by decide) (by decide) (by decide) (by decide) (by decide)
      (by decide) (by decide) (by decide) (by decide)).1,
    by decide⟩

/-- C7, as stated, fails twice. For argv `["/bin/true"]`, pid 42 and working directory
`/tmp/work` the file written in an empty output directory holds
`{ "pid": 42, "cmd": ["/bin/true"], "cwd": "/tmp/work"}`, with a space after the opening
brace, not the text the claim gives. And for an argv holding the one-byte string `\x01`
the cmd array holds that byte raw between quotes, which is no JSON string: the decoder
rejects it. -/
theorem bear_report_call_text_differs :
    contentAfter (bear_report_call sampleGlobals sampleHost (sampleFiles 0)
      (some [some (cstr "/bin/true"), none])) (cstr "/out/42_0.json") =
      some (cstr "\x7b \"pid\": 42, \"cmd\": [\"/bin/true\"], \"cwd\": \"/tmp/work\"\x7d") ∧
    contentAfter (bear_report_call sampleGlobals sampleHost (sampleFiles 0)
      (some [some (cstr "/bin/true"), none])) (cstr "/out/42_0.json") ≠
      some (cstr "\x7b\"pid\": 42, \"cmd\": [\"/bin/true\"], \"cwd\": \"/tmp/work\"\x7d") ∧
    contentAfter (bear_report_call sampleGlobals sampleHost (sampleFiles 0)
      (some [some [1], none])) (cstr "/out/42_0.json") =
      some (cstr "\x7b \"pid\": 42, \"cmd\": [" ++ [34, 1, 34] ++
        cstr "], \"cwd\": \"/tmp/work\"\x7d") ∧
    json_decode [34, 1, 34] = none := by
  decide

/-- C7, amended: when reporting is enabled and the calls to the system succeed,
`bear_report_call` leaves in the file it opens the single object
`{ "pid": P, "cmd": [...], "cwd": ...}`, a space following the opening brace: the cmd
array holds the strings of exactly the argv entries, in order, separated by commas with
none leading or trailing (`[]` for an empty or a null argv), and cwd is the string of the
working directory, each string written between double quotes with the escaping the
specification words (backslash and quote escaped, the five short escapes, every other
byte verbatim). Whenever the argv strings and the working directory hold no byte below
0x20 other than backspace, tab, newline, form feed and carriage return, each of these
strings is a JSON string that decodes back to the argv entry or the working directory.
For argv `["/bin/true"]` and cwd `/tmp/work` the content is
`{ "pid": P, "cmd": ["/bin/true"], "cwd": "/tmp/work"}`. -/
theorem bear_report_call_content (g : Globals) (h : Host) (fs : FileSystem)
    (argv : Option StrArr) (out_dir cwd : CStr)
    (hinit : g.initialized ≠ 0) (hout : g.initial_env.getD 0 none = some out_dir)
    (hcwd : h.cwd = some cwd) (hopen : fs.writable (report_filename g h fs) = true)
    (hclose : h.fclose_ok = true) :
    contentAfter (bear_report_call g h fs argv) (report_filename g h fs) =
      some (cstr "\x7b \"pid\": " ++ fmt_d h.pid ++ cstr ", \"cmd\": [" ++
        commaSeparated ((entries (argv.getD [])).map spec_json_string) ++
        cstr "], \"cwd\": " ++ spec_json_string cwd ++ cstr "\x7d") ∧
    ((∀ w ∈ entries (argv.getD []), ∀ b ∈ w,
        32 ≤ b ∨ b = 8 ∨ b = 9 ∨ b = 10 ∨ b = 12 ∨ b = 13) →
      ((entries (argv.getD [])).map spec_json_string).map json_decode =
        (entries (argv.getD [])).map some) ∧
    ((∀ b ∈ cwd, 32 ≤ b ∨ b = 8 ∨ b = 9 ∨ b = 10 ∨ b = 12 ∨ b = 13) →
      json_decode (spec_json_string cwd) = some cwd) ∧
    (∀ p, p ≠ report_filename g h fs →
      contentAfter (bear_report_call g h fs argv) p = fs.content p) ∧
    (argv = none ∨ argv = some [none] →
      contentAfter (bear_report_call g h fs argv) (report_filename g h fs) =
        some (cstr "\x7b \"pid\": " ++ fmt_d h.pid ++ cstr ", \"cmd\": [], \"cwd\": " ++
          spec_json_string cwd ++ cstr "\x7d")) ∧
    (argv = some [some (cstr "/bin/true"), none] → cwd = cstr "/tmp/work" →
      contentAfter (bear_report_call g h fs argv) (report_filename g h fs) =
        some (cstr "\x7b \"pid\": " ++ fmt_d h.pid ++
          cstr ", \"cmd\": [\"/bin/true\"], \"cwd\": \"/tmp/work\"\x7d")) := by
  have hcall := bear_report_call_ok g h fs argv out_dir cwd hinit hout hcwd hopen hclose
  have hbrace : cstr "\x7d" = [125] := by decide
  have hmap : (entries (argv.getD [])).map jsonString =
      (entries (argv.getD [])).map spec_json_string :=
    List.map_congr_left (fun w _ => jsonString_eq_spec w)
  have htext : contentAfter (bear_report_call g h fs argv) (report_filename g h fs) =
      some (cstr "\x7b \"pid\": " ++ fmt_d h.pid ++ cstr ", \"cmd\": [" ++
        commaSeparated ((entries (argv.getD [])).map spec_json_string) ++
        cstr "], \"cwd\": " ++ spec_json_string cwd ++ [125]) := by
    simp only [hcall, contentAfter, FileSystem.store, if_true]
    rw [bear_report_call_text_eq, hmap, jsonString_eq_spec]
  refine ⟨?_, json_decode_map_spec _, json_decode_spec_json_string cwd, ?_, ?_, ?_⟩
  · rw [htext, hbrace]
  · intro p hp
    simp [hcall, contentAfter, FileSystem.store, hp]
  · intro hargv
    have hnil : entries (argv.getD []) = [] := by
      rcases hargv with h1 | h1 <;> subst h1 <;> rfl
    have e1 : cstr ", \"cmd\": [" ++ cstr "], \"cwd\": " = cstr ", \"cmd\": [], \"cwd\": " := by
      decide
    rw [htext, hnil, hbrace]
    simp only [List.map_nil, commaSeparated, List.append_nil, List.append_assoc]
    rw [← List.append_assoc (cstr ", \"cmd\": ["), e1]
  · intro hargv hwd
    subst hargv; subst hwd
    have e1 : cstr ", \"cmd\": [" ++
        (commaSeparated ((entries [some (cstr "/bin/true"), none]).map spec_json_string) ++
        (cstr "], \"cwd\": " ++ (spec_json_string (cstr "/tmp/work") ++ [125]))) =
        cstr ", \"cmd\": [\"/bin/true\"], \"cwd\": \"/tmp/work\"\x7d" := by
      decide
    rw [htext]
    simp only [Option.getD_some, List.append_assoc]
    rw [e1]

/-- Witness for `bear_report_call_content`: process 42 reporting `/bin/true` from
`/tmp/work` into the empty directory `/out`. -/
theorem bear_report_call_content_witness :
    contentAfter (bear_report_call sampleGlobals sampleHost (sampleFiles 0)
      (some [some (cstr "/bin/true"), none]))
      (report_filename sampleGlobals sampleHost (sampleFiles 0)) =
      some (cstr "\x7b \"pid\": " ++ fmt_d sampleHost.pid ++
        cstr ", \"cmd\": [\"/bin/true\"], \"cwd\": \"/tmp/work\"\x7d") :=
  (bear_report_call_content sampleGlobals sampleHost (sampleFiles 0)
    (some [some (cstr "/bin/true"), none]) (cstr "/out") (cstr "/tmp/work")
    (by decide) (by decide) (by decide) (by decide) (by decide)).2.2.2.2.2 rfl rfl

/-! ## The report file: the size of the file-name buffer -/

theorem bear_report_call_filename_formatted (fs : FileSystem) (out_dir : CStr) (pid : Int)
    (hlo : -2147483648 ≤ pid) (hhi : pid < 2147483648) (left idx : Nat) (buf : CStr)
    (hleft : 0 < left) (h100 : idx + left ≤ 100) :
    ∃ j, idx ≤ j ∧ j < idx + left ∧
      bear_report_call_filename fs out_dir pid (strlen out_dir + 32) left idx buf =
        report_path out_dir pid (j : Nat) := by
  induction left generalizing idx buf with
  | zero => omega
  | succ left ih =>
    simp only [bear_report_call_filename,
      snprintf_report_path out_dir pid idx hlo hhi (by omega)]
    split
    · exact ⟨idx, Nat.le_refl _, by omega, rfl⟩
    · cases left with
      | zero => exact ⟨idx, Nat.le_refl _, by omega, rfl⟩
      | succ left =>
        obtain ⟨j, hj1, hj2, hj⟩ := ih (idx + 1) (report_path out_dir pid (idx : Nat))
          (by omega) (by omega)
        exact ⟨j, by omega, by omega, hj⟩

/-- C11: the report file name is never truncated. For every output directory `d`, every
pid in the range of a 32-bit `int` and every index below 100, the text
`d/<pid>_<idx>.json` with its terminating NUL fits in the `strlen(d) + 32` bytes of the
buffer (it needs at most `strlen(d) + 21`), so `snprintf` stores exactly the formatted
path; and the name `bear_report_call` passes to `fopen` after its loop, like every name
it passes to `access`, is such a formatted path of an index below 100. -/
theorem report_filename_never_truncated (fs : FileSystem) (d : CStr) (pid : Int)
    (idx : Nat) (hlo : -2147483648 ≤ pid) (hhi : pid < 2147483648) (hidx : idx < 100) :
    strlen (report_path d pid (idx : Nat)) + 1 ≤ strlen d + 21 ∧
    strlen (report_path d pid (idx : Nat)) + 1 ≤ strlen d + 32 ∧
    snprintf (strlen d + 32) (report_path d pid (idx : Nat)) =
      report_path d pid (idx : Nat) ∧
    ∃ j, j < 100 ∧
      bear_report_call_filename fs d pid (strlen d + 32) 100 0 [] =
        report_path d pid (j : Nat) := by
  have h1 := fmt_d_length_int32 pid hlo hhi
  have h2 := fmt_d_length_idx idx hidx
  have h3 : (cstr ".json").length = 5 := by decide
  have hlen : strlen (report_path d pid (idx : Nat)) + 1 ≤ strlen d + 21 := by
    simp only [report_path, strlen, List.length_append, List.length_cons, h3]
    omega
  refine ⟨hlen, by omega, snprintf_report_path d pid idx hlo hhi hidx, ?_⟩
  obtain ⟨j, _, hj, hname⟩ := bear_report_call_filename_formatted fs d pid hlo hhi 100 0 []
    (by omega) (by omega)
  exact ⟨j, by omega, hname⟩

/-- Witness for `report_filename_never_truncated`: the longest name, for the pid
-2147483648 and the index 99 in `/out`, is stored whole. -/
theorem report_filename_never_truncated_witness :
    snprintf (strlen (cstr "/out") + 32)
        (report_path (cstr "/out") (-2147483648) ((99 : Nat) : Int)) =
      report_path (cstr "/out") (-2147483648) ((99 : Nat) : Int) ∧
    report_path (cstr "/out") (-2147483648) ((99 : Nat) : Int) =
      cstr "/out/-2147483648_99.json" :=
  ⟨(report_filename_never_truncated (sampleFiles 0) (cstr "/out") (-2147483648) 99
      (by decide) (by decide) (by decide)).2.2.1,
    by decide⟩

end Ear
